import Mathlib

/-!
# Verification of the lab0-c queue engine (queue.c)

A shallow embedding of the queue operations of `queue.c`.

Payload strings are modelled as byte lists (`Str`), C `strcmp` as a
three-way comparison returning an `Int` sign.  The value-level models
translate the control flow of each function on the sequence of payloads
(or of `(node id, payload)` pairs where node identity matters).  A
separate pointer-level model (`namespace Ptr`) represents the circular
doubly-linked structure as explicit `next`/`prev` maps on node ids and
is used for the structural invariant.
-/

set_option maxHeartbeats 1000000

/-- A C string payload: the list of its bytes (the terminating NUL is
implicit and not part of the list). -/
abbrev Str : Type := List Nat

/-- Sign of C `strcmp` on two payloads (byte-wise comparison; at the end
of a string the implicit NUL byte compares below every payload byte, so a
proper prefix compares less). -/
def strcmp : Str → Str → Int
  | [], [] => 0
  | [], _ :: _ => -1
  | _ :: _, [] => 1
  | a :: as, b :: bs => if a < b then -1 else if b < a then 1 else strcmp as bs

theorem strcmp_eq_zero_iff : ∀ a b : Str, strcmp a b = 0 ↔ a = b := by
  intro a
  induction a with
  | nil => intro b; cases b <;> simp [strcmp]
  | cons x as ih =>
    intro b
    cases b with
    | nil => simp [strcmp]
    | cons y bs =>
      by_cases hxy : x < y
      · simp only [strcmp, if_pos hxy, List.cons.injEq]
        constructor
        · intro h; omega
        · rintro ⟨h1, -⟩; omega
      · by_cases hyx : y < x
        · simp only [strcmp, if_neg hxy, if_pos hyx, List.cons.injEq]
          constructor
          · intro h; omega
          · rintro ⟨h1, -⟩; omega
        · have hxy' : x = y := by omega
          subst hxy'
          simp [strcmp, ih]

theorem strcmp_antisymm : ∀ a b : Str, strcmp b a = -strcmp a b := by
  intro a
  induction a with
  | nil => intro b; cases b <;> simp [strcmp]
  | cons x as ih =>
    intro b
    cases b with
    | nil => simp [strcmp]
    | cons y bs =>
      by_cases hxy : x < y
      · have : ¬ y < x := by omega
        simp [strcmp, hxy, this]
      · by_cases hyx : y < x
        · simp [strcmp, hxy, hyx]
        · simp [strcmp, hxy, hyx, ih]

theorem strcmp_le_total (a b : Str) : strcmp a b ≤ 0 ∨ strcmp b a ≤ 0 := by
  rcases le_or_lt (strcmp a b) 0 with h | h
  · exact Or.inl h
  · right; rw [strcmp_antisymm a b]; omega

theorem strcmp_le_trans : ∀ a b c : Str, strcmp a b ≤ 0 → strcmp b c ≤ 0 → strcmp a c ≤ 0 := by
  intro a
  induction a with
  | nil => intro b c _ _; cases c <;> simp [strcmp]
  | cons x as ih =>
    intro b c hab hbc
    cases b with
    | nil => simp [strcmp] at hab
    | cons y bs =>
      cases c with
      | nil => simp [strcmp] at hbc
      | cons z cs =>
        by_cases hxy : x < y
        · -- x < y ≤ z
          have hyz : ¬ z < y := by
            intro hzy
            simp [strcmp, if_neg (by omega : ¬ y < z), if_pos hzy] at hbc
          have hxz : x < z := by
            by_cases h' : y < z
            · omega
            · have : y = z := by omega
              omega
          simp [strcmp, hxz]
        · by_cases hyx : y < x
          · simp [strcmp, hxy, hyx] at hab
          · -- x = y
            have hxy' : x = y := by omega
            by_cases hyz : y < z
            · have hxz : x < z := by omega
              simp [strcmp, hxz]
            · by_cases hzy : z < y
              · simp [strcmp, hyz, hzy] at hbc
              · have hyz' : y = z := by omega
                have h1 : strcmp as bs ≤ 0 := by
                  simpa [strcmp, hxy, hyx] using hab
                have h2 : strcmp bs cs ≤ 0 := by
                  simpa [strcmp, hyz, hzy] using hbc
                have hxz : ¬ x < z := by omega
                have hzx : ¬ z < x := by omega
                simpa [strcmp, hxz, hzx] using ih bs cs h1 h2

theorem strcmp_not_lt (a b : Str) (h : ¬ strcmp a b < 0) : strcmp b a ≤ 0 := by
  rw [strcmp_antisymm a b]; omega

/-- A queue element as seen by the sort: its node identity (the address,
abstracted as a `Nat`) together with its payload (`element_t::value`). -/
abbrev E : Type := Nat × Str

/-- The merge loop of `q_merge_sort` (queue.c:306-318): two-pointer merge,
taking the left node exactly when `strcmp(left, right) < 0`, otherwise the
right node.  The final `*next_ptr = left | right` step appends whichever
sublist is non-empty (see `mergeC` below for the bit-trick itself). -/
def merge : List E → List E → List E
  | [], ys => ys
  | x :: xs, [] => x :: xs
  | x :: xs, y :: ys =>
    if strcmp x.2 y.2 < 0 then x :: merge xs (y :: ys) else y :: merge (x :: xs) ys
termination_by l r => l.length + r.length

@[simp] theorem merge_nil_left (ys : List E) : merge [] ys = ys := by
  cases ys <;> simp [merge]

@[simp] theorem merge_nil_right (xs : List E) : merge xs [] = xs := by
  cases xs <;> simp [merge]

theorem merge_cons_cons (x : E) (xs : List E) (y : E) (ys : List E) :
    merge (x :: xs) (y :: ys) =
      if strcmp x.2 y.2 < 0 then x :: merge xs (y :: ys) else y :: merge (x :: xs) ys := by
  rw [merge]

/-- The fast/slow split walk of `q_merge_sort` (queue.c:295-299): `fast`
starts at the first node and advances two links per step while `slow`
advances one; the result is the number of `slow` steps taken, i.e. the
index where the list is split. -/
def splitSteps : List E → Nat
  | [] => 0
  | [_] => 0
  | _ :: _ :: rest => splitSteps rest + 1

theorem splitSteps_eq_half : ∀ l : List E, splitSteps l = l.length / 2 := by
  intro l
  induction l using splitSteps.induct with
  | case1 => simp [splitSteps]
  | case2 _ => simp [splitSteps]
  | case3 a b rest ih => simp [splitSteps, ih, List.length_cons]; omega

/-- `q_merge_sort` (queue.c:289-321): return the list unchanged when it has
at most one node; otherwise split at the fast/slow midpoint, recursively
sort the two halves, and merge them. -/
def q_merge_sort : List E → List E
  | [] => []
  | [x] => [x]
  | x :: y :: rest =>
    merge (q_merge_sort ((x :: y :: rest).take (splitSteps (x :: y :: rest))))
          (q_merge_sort ((x :: y :: rest).drop (splitSteps (x :: y :: rest))))
termination_by l => l.length
decreasing_by
  · simp only [List.length_take, splitSteps_eq_half]
    simp [List.length_cons]
    omega
  · simp only [List.length_drop, splitSteps_eq_half]
    simp [List.length_cons]
    omega

theorem q_merge_sort_cons_cons (x y : E) (rest : List E) :
    q_merge_sort (x :: y :: rest) =
      merge (q_merge_sort ((x :: y :: rest).take (splitSteps (x :: y :: rest))))
            (q_merge_sort ((x :: y :: rest).drop (splitSteps (x :: y :: rest)))) := by
  rw [q_merge_sort]

theorem merge_perm (xs ys : List E) : (merge xs ys).Perm (xs ++ ys) := by
  induction xs generalizing ys with
  | nil => simp
  | cons x xs ihx =>
    induction ys with
    | nil => simp
    | cons y ys ihy =>
      rw [merge_cons_cons]
      by_cases h : strcmp x.2 y.2 < 0
      · simpa [h] using (ihx (y :: ys)).cons x
      · simp only [h, if_false]
        refine (ihy.cons y).trans ?_
        exact ((List.perm_middle).symm : (y :: (x :: xs) ++ ys).Perm ((x :: xs) ++ y :: ys))

theorem q_merge_sort_perm : ∀ l : List E, (q_merge_sort l).Perm l := by
  intro l
  induction l using q_merge_sort.induct with
  | case1 => simp [q_merge_sort]
  | case2 x => simp [q_merge_sort]
  | case3 x y rest ih1 ih2 =>
    rw [q_merge_sort_cons_cons]
    refine (merge_perm _ _).trans ?_
    refine ((ih1.append ih2).trans ?_)
    simp [List.take_append_drop]

/-- Ascending payload order as produced by the sort: consecutive payloads
compare `strcmp ≤ 0`. -/
def sortedE (l : List E) : Prop := List.Chain' (fun a b : E => strcmp a.2 b.2 ≤ 0) l

theorem head?_merge (xs ys : List E) :
    (merge xs ys).head? = xs.head? ∨ (merge xs ys).head? = ys.head? := by
  cases xs with
  | nil => right; simp
  | cons x xs =>
    cases ys with
    | nil => left; simp
    | cons y ys =>
      rw [merge_cons_cons]
      by_cases h : strcmp x.2 y.2 < 0
      · left; simp [h]
      · right; simp [h]

theorem merge_sorted : ∀ xs ys : List E, sortedE xs → sortedE ys → sortedE (merge xs ys) := by
  intro xs ys
  induction xs, ys using merge.induct with
  | case1 ys => intro _ h; simpa using h
  | case2 x xs => intro h _; simpa using h
  | case3 x xs y ys h ih =>
    intro hx hy
    rw [merge_cons_cons, if_pos h]
    refine List.chain'_cons'.2 ⟨?_, ih hx.tail hy⟩
    intro z hz
    rcases head?_merge xs (y :: ys) with hh | hh
    · exact (List.chain'_cons'.1 hx).1 z (by rw [← hh]; exact hz)
    · have : z = y := by
        rw [hh] at hz; have h2 := hz; simp at h2; exact h2.symm
      subst this; omega
  | case4 x xs y ys h ih =>
    intro hx hy
    rw [merge_cons_cons, if_neg h]
    refine List.chain'_cons'.2 ⟨?_, ih hx hy.tail⟩
    intro z hz
    rcases head?_merge (x :: xs) ys with hh | hh
    · have : z = x := by
        rw [hh] at hz; have h2 := hz; simp at h2; exact h2.symm
      subst this; exact strcmp_not_lt _ _ h
    · exact (List.chain'_cons'.1 hy).1 z (by rw [← hh]; exact hz)

theorem q_merge_sort_sorted : ∀ l : List E, sortedE (q_merge_sort l) := by
  intro l
  induction l using q_merge_sort.induct with
  | case1 => simp [q_merge_sort, sortedE]
  | case2 x => simp [q_merge_sort, sortedE]
  | case3 x y rest ih1 ih2 =>
    rw [q_merge_sort_cons_cons]
    exact merge_sorted _ _ ih1 ih2

/-- The final `*next_ptr = (struct list_head *)((uintptr_t) left | (uintptr_t) right)`
of `q_merge_sort` (queue.c:319), modelled on pointers-as-lists: a null
pointer is the empty list, and the bitwise OR of two pointers is
meaningful (equal to the non-null operand) only when at least one operand
is null; otherwise the result is garbage (`none`). -/
def ptrOr (l r : List E) : Option (List E) :=
  if l = [] then some r else if r = [] then some l else none

/-- The merge loop of `q_merge_sort` exactly as written (queue.c:306-319):
run the two-pointer loop while both sublists are non-null, then finish by
assigning the bitwise OR of the two remaining pointers.  The result is
`none` if that final OR would mix two non-null pointers. -/
def mergeC : List E → List E → Option (List E)
  | [], ys => ptrOr [] ys
  | x :: xs, [] => ptrOr (x :: xs) []
  | x :: xs, y :: ys =>
    if strcmp x.2 y.2 < 0 then (mergeC xs (y :: ys)).map (x :: ·)
    else (mergeC (x :: xs) ys).map (y :: ·)
termination_by l r => l.length + r.length

/-- C9: when the merge loop exits, at least one sublist pointer is null, so
the bitwise-OR assignment of the tail yields exactly the remaining
non-empty sublist (the empty list when both are exhausted); `mergeC` (the
bit-trick formulation) therefore never produces garbage and agrees with
`merge`, the reference formulation that explicitly appends whichever
sublist is still non-empty. -/
theorem mergeC_eq_merge : ∀ l r : List E, mergeC l r = some (merge l r) := by
  intro l r
  induction l, r using merge.induct with
  | case1 ys => cases ys <;> simp [mergeC, ptrOr, merge]
  | case2 x xs => simp [mergeC, ptrOr]
  | case3 x xs y ys h ih => rw [mergeC, merge_cons_cons]; simp [h, ih]
  | case4 x xs y ys h ih => rw [mergeC, merge_cons_cons]; simp [h, ih]

/-- `q_sort` (queue.c:270-287) at the level of the node sequence: no effect
on a null or empty queue; otherwise the element chain is replaced by its
merge sort.  (`some l` is a queue whose element sequence is `l`; `none` is
a null queue handle.) -/
def q_sortO : Option (List E) → Option (List E)
  | none => none
  | some [] => some []
  | some (x :: rest) => some (q_merge_sort (x :: rest))

/-- C5: `q_sort` rearranges exactly the original nodes — the output is a
permutation of the input `(node id, payload)` pairs, so no node is added,
lost or reallocated — into ascending `strcmp` order of payloads, and is a
no-op on a null, empty, or single-element queue. -/
theorem q_sort_perm_sorted_noop :
    (∀ l : List E, (q_merge_sort l).Perm l ∧ sortedE (q_merge_sort l)) ∧
    q_sortO none = none ∧ q_sortO (some []) = some [] ∧
    ∀ x : E, q_sortO (some [x]) = some [x] := by
  refine ⟨fun l => ⟨q_merge_sort_perm l, q_merge_sort_sorted l⟩, rfl, rfl, fun x => ?_⟩
  simp [q_sortO, q_merge_sort]

/-- The three-node queue of the stability scenario: payloads "b", "a", "b"
(bytes 98, 97, 98), with node identities 0, 1, 2 in original order. -/
def stabilityInput : List E := [(0, [98]), (1, [97]), (2, [98])]

/-- C1 counterexample: sorting the node sequence ["b","a","b"] yields the
payloads ["a","b","b"], but the two "b" nodes come out in the order
(2, then 0) — the reverse of their original identity order — because the
merge resolves the tie by taking the right sublist's node first.  The
claimed stable output `[(1,"a"), (0,"b"), (2,"b")]` is not produced. -/
theorem q_merge_sort_eval_ex :
    q_merge_sort stabilityInput = [(1, [97]), (2, [98]), (0, [98])] := by
  show q_merge_sort [(0, [98]), (1, [97]), (2, [98])] = _
  norm_num [q_merge_sort, splitSteps, merge_cons_cons, strcmp]

theorem q_sort_not_stable :
    q_merge_sort stabilityInput = [(1, [97]), (2, [98]), (0, [98])] ∧
    q_merge_sort stabilityInput ≠ [(1, [97]), (0, [98]), (2, [98])] := by
  refine ⟨q_merge_sort_eval_ex, ?_⟩
  rw [q_merge_sort_eval_ex]
  decide

/-- C1 amended: the merge resolves ties by taking the *right* sublist's
node first (queue.c:308-316 takes the left node only on strict
`strcmp < 0`), so the sort is not stable: sorting the node sequence
["b","a","b"] yields the payload sequence ["a","b","b"] but with the two
"b" nodes' relative identity order reversed. -/
theorem q_sort_tie_right :
    (∀ (x y : E) (xs ys : List E), strcmp x.2 y.2 = 0 →
        merge (x :: xs) (y :: ys) = y :: merge (x :: xs) ys) ∧
    q_merge_sort stabilityInput = [(1, [97]), (2, [98]), (0, [98])] := by
  constructor
  · intro x y xs ys h
    rw [merge_cons_cons, if_neg (by omega)]
  · exact q_merge_sort_eval_ex

/-- Witness for `q_sort_tie_right`: two nodes with equal payload "b". -/
theorem q_sort_tie_right_witness :
    strcmp ([98] : Str) [98] = 0 ∧
    merge [((0 : Nat), ([98] : Str))] [(1, [98])] = [(1, [98]), (0, [98])] := by
  constructor
  · decide
  · have h := (q_sort_tie_right.1 (0, [98]) (1, [98]) [] []) (by decide)
    simpa using h

/-- The loop of `q_delete_dup` (queue.c:207-219) on the payload sequence.
The `Bool` argument is the `is_dup` flag: each node equal (by `strcmp`) to
its successor is deleted with the flag set; a node reached with the flag
set that no longer matches its successor is the trailing node of a
duplicate run and is deleted too, clearing the flag. -/
def delDupGo : Bool → List Str → List Str
  | _, [] => []
  | isDup, [x] => if isDup then [] else [x]
  | isDup, x :: y :: rest =>
    if strcmp x y = 0 then delDupGo true (y :: rest)
    else if isDup then delDupGo false (y :: rest)
    else x :: delDupGo false (y :: rest)

/-- `q_delete_dup` (queue.c:202-221): false only on a null handle,
otherwise run the deletion pass and report success. -/
def q_delete_dupO : Option (List Str) → Bool × Option (List Str)
  | none => (false, none)
  | some l => (true, some (delDupGo false l))

/-- Payloads in ascending `strcmp` order (the documented precondition of
`q_delete_dup`). -/
def sortedStr (l : List Str) : Prop := List.Chain' (fun a b => strcmp a b ≤ 0) l

instance (l : List Str) : Decidable (sortedStr l) :=
  inferInstanceAs (Decidable (List.Chain' (fun a b => strcmp a b ≤ 0) l))

theorem strcmp_self (a : Str) : strcmp a a = 0 := (strcmp_eq_zero_iff a a).2 rfl

theorem strcmp_le_antisymm (a b : Str) (h1 : strcmp a b ≤ 0) (h2 : strcmp b a ≤ 0) : a = b := by
  rw [strcmp_antisymm a b] at h2
  exact (strcmp_eq_zero_iff a b).1 (by omega)

/-- In a sorted list whose head differs from `x`, with `x ≤` the head,
`x` does not occur at all. -/
theorem sorted_not_mem (x : Str) (l : List Str) (hs : sortedStr l)
    (hhead : ∀ z ∈ l.head?, strcmp x z ≤ 0 ∧ x ≠ z) : x ∉ l := by
  induction l with
  | nil => simp
  | cons y ys ih =>
    have hy := hhead y (by simp)
    intro hmem
    rcases List.mem_cons.1 hmem with rfl | hmem'
    · exact hy.2 rfl
    · refine ih hs.tail ?_ hmem'
      intro z hz
      have hyz := (List.chain'_cons'.1 hs).1 z hz
      have hxz : strcmp x z ≤ 0 := strcmp_le_trans _ _ _ hy.1 hyz
      refine ⟨hxz, ?_⟩
      rintro rfl
      exact hy.2 (strcmp_le_antisymm x y hy.1 hyz)

/-- `delDupGo` with the flag set consumes the leading run equal to the
current head and continues with the flag cleared. -/
theorem delDupGo_true (x : Str) : ∀ t : List Str,
    delDupGo true (x :: t) = delDupGo false (t.dropWhile (fun z => strcmp x z = 0)) := by
  intro t
  induction t generalizing x with
  | nil => simp [delDupGo]
  | cons y r ih =>
    by_cases h : strcmp x y = 0
    · have hxy : x = y := (strcmp_eq_zero_iff x y).1 h
      subst hxy
      simp only [delDupGo, if_pos h, List.dropWhile]
      rw [ih x]
      simp [h]
    · simp only [delDupGo, if_pos rfl, if_neg h, List.dropWhile]
      simp [h, delDupGo]

theorem head?_dropWhile_not (p : Str → Bool) :
    ∀ l : List Str, ∀ z ∈ (l.dropWhile p).head?, ¬ p z := by
  intro l
  induction l with
  | nil => simp
  | cons x xs ih =>
    by_cases h : p x
    · simpa [List.dropWhile, h] using ih
    · simp [List.dropWhile, h]

/-- In a sorted list, the head is `≤` every later element. -/
theorem sorted_head_le_all (a : Str) (t : List Str) (hs : sortedStr (a :: t)) :
    ∀ z ∈ t, strcmp a z ≤ 0 := by
  induction t generalizing a with
  | nil => simp
  | cons b r ih =>
    intro z hz
    have hab : strcmp a b ≤ 0 := (List.chain'_cons.1 hs).1
    rcases List.mem_cons.1 hz with rfl | hz'
    · exact hab
    · exact strcmp_le_trans _ _ _ hab (ih b hs.tail z hz')

/-- On a sorted list, the `q_delete_dup` pass keeps exactly the payloads
that occur once in the input. -/
theorem delDupGo_false_sorted_aux : ∀ (n : Nat) (l : List Str), l.length ≤ n → sortedStr l →
    delDupGo false l = l.filter (fun x => l.count x = 1) := by
  intro n
  induction n with
  | zero =>
    intro l hl _
    match l, hl with
    | [], _ => rfl
  | succ n ihn =>
    intro l hl hs
    match l with
    | [] => rfl
    | [x] => simp [delDupGo]
    | x :: y :: rest =>
      by_cases h : strcmp x y = 0
      · -- x = y: the whole leading run of x's is removed.
        have hxy : x = y := (strcmp_eq_zero_iff x y).1 h
        subst hxy
        set p : Str → Bool := fun z => decide (strcmp x z = 0) with hp
        set r := rest.dropWhile p with hr
        set tw := rest.takeWhile p with htw
        have hrest : tw ++ r = rest := by
          rw [htw, hr]; exact List.takeWhile_append_dropWhile (p := p) (l := rest)
        have step1 : delDupGo false (x :: x :: rest) = delDupGo false r := by
          simp only [delDupGo, if_pos (strcmp_self x)]
          rw [delDupGo_true]
        have hsuffix : r.IsSuffix rest := by rw [hr]; exact List.dropWhile_suffix p
        have hsr : sortedStr r := by
          refine List.Chain'.suffix hs ?_
          exact hsuffix.trans ⟨[x, x], rfl⟩
        have htwx : ∀ z ∈ tw, z = x := by
          intro z hz
          rw [htw] at hz
          have hz' := List.mem_takeWhile_imp hz
          rw [hp] at hz'
          simp only [decide_eq_true_eq] at hz'
          exact ((strcmp_eq_zero_iff x z).1 hz').symm
        have hxr : x ∉ r := by
          refine sorted_not_mem x r hsr ?_
          intro z hz
          have hzr : z ∈ r := List.mem_of_mem_head? hz
          have hzrest : z ∈ rest := hsuffix.subset hzr
          have hnp : ¬ p z = true := by
            rw [hr] at hz
            exact head?_dropWhile_not p rest z hz
          rw [hp] at hnp
          simp only [decide_eq_true_eq] at hnp
          refine ⟨sorted_head_le_all x (x :: rest) hs z (List.mem_cons_of_mem x hzrest), ?_⟩
          rintro rfl
          exact hnp (strcmp_self _)
        have hcx : List.count x (x :: x :: rest) ≠ 1 := by
          simp [List.count_cons]
        have hztw : ∀ z, z ≠ x → tw.count z = 0 := by
          intro z hzx
          rw [List.count_eq_zero]
          intro hmem
          exact hzx (htwx z hmem)
        have hcz : ∀ z ∈ r, List.count z (x :: x :: rest) = List.count z r := by
          intro z hz
          have hzx : z ≠ x := by rintro rfl; exact hxr hz
          have hxz : ¬ (x = z) := fun he => hzx he.symm
          rw [← hrest]
          simp [List.count_cons, List.count_append, hztw z hzx, hxz]
        have hcx' : ¬ ((fun z => decide (List.count z (x :: x :: (tw ++ r)) = 1)) x = true) := by
          simp only [decide_eq_true_eq, hrest]
          exact hcx
        have hfilter :
            (x :: x :: rest).filter (fun z => (x :: x :: rest).count z = 1) =
              r.filter (fun z => r.count z = 1) := by
          rw [← hrest]
          simp only [List.filter_cons, List.filter_append]
          rw [if_neg hcx', if_neg hcx']
          have htwf : tw.filter (fun z => decide (List.count z (x :: x :: (tw ++ r)) = 1)) = [] := by
            rw [List.filter_eq_nil_iff]
            intro z hz
            rw [htwx z hz]
            simp only [decide_eq_true_eq, hrest]
            exact hcx
          rw [htwf, List.nil_append]
          refine List.filter_congr ?_
          intro z hz
          rw [hrest, hcz z hz]
        rw [step1, hfilter]
        refine ihn r ?_ hsr
        have h1 : r.length ≤ rest.length := hsuffix.length_le
        have h2 : rest.length + 2 ≤ n + 1 := by simpa using hl
        omega
      · -- x ≠ y: x survives, recurse on the tail.
        have htail : sortedStr (y :: rest) := hs.tail
        have hxy : x ≠ y := fun hxy => h (by rw [hxy]; exact strcmp_self y)
        have hxle : strcmp x y ≤ 0 := (List.chain'_cons.1 hs).1
        have hxnot : x ∉ (y :: rest) := by
          refine sorted_not_mem x (y :: rest) htail ?_
          intro z hz
          have hzy : y = z := by simpa using hz
          subst hzy
          exact ⟨hxle, hxy⟩
        have step : delDupGo false (x :: y :: rest) = x :: delDupGo false (y :: rest) := by
          simp [delDupGo, h]
        have hcx : List.count x (x :: y :: rest) = 1 := by
          have h0 : List.count x (y :: rest) = 0 := List.count_eq_zero.2 hxnot
          simp [List.count_cons] at h0 ⊢
          simp [h0]
        have hcz : ∀ z ∈ (y :: rest), List.count z (x :: y :: rest) = List.count z (y :: rest) := by
          intro z hz
          have hzx : z ≠ x := by rintro rfl; exact hxnot hz
          have hxz : ¬ (x = z) := fun he => hzx he.symm
          simp [List.count_cons, hxz]
        have hfilter :
            (x :: y :: rest).filter (fun z => (x :: y :: rest).count z = 1) =
              x :: (y :: rest).filter (fun z => (y :: rest).count z = 1) := by
          rw [List.filter_cons, if_pos (by simpa using hcx)]
          congr 1
          refine List.filter_congr ?_
          intro z hz
          rw [hcz z hz]
        rw [step, hfilter]
        congr 1
        refine ihn (y :: rest) ?_ htail
        have : rest.length + 2 ≤ n + 1 := by simpa using hl
        simp only [List.length_cons]
        omega

/-- C4: on an ascending-sorted queue, `q_delete_dup` removes every element
whose payload occurs more than once (a whole run of equal payloads
collapses to zero survivors), and the sorted list "1","1","2","3","3"
becomes exactly ["2"]. -/
theorem q_delete_dup_removes_all_dups :
    (∀ l : List Str, sortedStr l →
        q_delete_dupO (some l) = (true, some (l.filter (fun x => l.count x = 1)))) ∧
    q_delete_dupO (some [[49], [49], [50], [51], [51]]) = (true, some [[50]]) := by
  constructor
  · intro l hs
    simp only [q_delete_dupO, delDupGo_false_sorted_aux l.length l le_rfl hs]
  · simp [q_delete_dupO, delDupGo, strcmp]

/-- Witness for `q_delete_dup_removes_all_dups`: the sorted queue
["1","1","2"] keeps exactly ["2"]. -/
theorem q_delete_dup_removes_all_dups_witness :
    sortedStr [[49], [49], [50]] ∧
    q_delete_dupO (some [[49], [49], [50]]) =
      (true, some ([[49], [49], [50]].filter
        (fun x => List.count x [[49], [49], [50]] = 1))) := by
  have hs : sortedStr [[49], [49], [50]] := by
    simp [sortedStr, List.chain'_cons, strcmp]
  exact ⟨hs, q_delete_dup_removes_all_dups.1 [[49], [49], [50]] hs⟩

/-- The fast/slow walk of `q_delete_mid` (queue.c:182-186): `fast` starts
at the first element and advances two links per step while `slow` advances
one; the walk stops when `fast` reaches the sentinel or the node before
it.  The result counts the `slow` steps, i.e. the index of the node that
is deleted. -/
def midSteps {α : Type} : List α → Nat
  | [] => 0
  | [_] => 0
  | _ :: _ :: rest => midSteps rest + 1

theorem midSteps_eq_half {α : Type} : ∀ l : List α, midSteps l = l.length / 2 := by
  intro l
  induction l using midSteps.induct with
  | case1 => simp [midSteps]
  | case2 _ => simp [midSteps]
  | case3 a b rest ih => simp [midSteps, ih, List.length_cons]; omega

/-- `q_delete_mid` (queue.c:177-191): false on a null or empty queue;
otherwise unlink the node the fast/slow walk stops on, release it, and
return true.  The result is (return value, remaining queue, the payload
of the released node). -/
def q_delete_midO {α : Type} : Option (List α) → Bool × Option (List α) × Option α
  | none => (false, none, none)
  | some [] => (false, some [], none)
  | some (x :: rest) =>
    (true, some ((x :: rest).eraseIdx (midSteps (x :: rest))),
      (x :: rest).get? (midSteps (x :: rest)))

/-- C6: on a non-empty queue of n elements `q_delete_mid` removes exactly
the element at zero-based index ⌊n/2⌋ and returns true (for six elements
0..5 it removes index 3, leaving 0,1,2,4,5); it returns false exactly when
the queue is null or empty. -/
theorem q_delete_mid_half {α : Type} :
    (∀ (x : α) (rest : List α),
        q_delete_midO (some (x :: rest)) =
          (true, some ((x :: rest).eraseIdx ((x :: rest).length / 2)),
            (x :: rest).get? ((x :: rest).length / 2))) ∧
    q_delete_midO (none : Option (List α)) = (false, none, none) ∧
    q_delete_midO (some ([] : List α)) = (false, some [], none) ∧
    q_delete_midO (some [0, 1, 2, 3, 4, 5]) = (true, some [0, 1, 2, 4, 5], some 3) := by
  refine ⟨?_, rfl, rfl, by simp [q_delete_midO, midSteps]⟩
  intro x rest
  simp [q_delete_midO, midSteps_eq_half]

/-- The loop of `q_swap` (queue.c:231-242) on the node sequence.  `temp`
holds the node unlinked by the previous iteration (`list_del(curr)` when
`temp` is empty); when a second node is seen, the held node is reinserted
immediately after it (`list_add(temp, curr)`).  At the end of the
traversal a leftover held node is placed back at the tail
(`list_add_tail(temp, head)`). -/
def swapGo {α : Type} : List α → Option α → List α
  | [], none => []
  | [], some t => [t]
  | c :: rest, none => swapGo rest (some c)
  | c :: rest, some t => c :: t :: swapGo rest none

/-- `q_swap` (queue.c:226-243): no-op on a null handle, otherwise run the
pairwise-swap traversal. -/
def q_swapO {α : Type} : Option (List α) → Option (List α)
  | none => none
  | some l => some (swapGo l none)

theorem swapGo_perm {α : Type} : ∀ (l : List α) (o : Option α),
    (swapGo l o).Perm (l ++ o.toList) := by
  intro l
  induction l with
  | nil => intro o; cases o <;> simp [swapGo]
  | cons c rest ih =>
    intro o
    cases o with
    | none =>
      refine ((ih (some c)).trans (List.perm_append_comm : (rest ++ [c]).Perm ([c] ++ rest))).trans ?_
      simp
    | some t =>
      refine (((ih none).cons t).cons c).trans ?_
      simp only [Option.toList_none, Option.toList_some, List.append_nil]
      refine List.Perm.cons c ?_
      exact (List.perm_append_comm : ([t] ++ rest).Perm (rest ++ [t]))

/-- C7: `q_swap` exchanges the positions of each adjacent pair of nodes by
relinking (the traversal is generic in the node type, so node identities
and payload pointers are untouched, and the result is a permutation of the
original nodes); an odd-length list keeps its final unpaired node in the
trailing position, a null/empty/single-element queue is unchanged, and
a,b,c becomes b,a,c. -/
theorem q_swap_pairs {α : Type} :
    (∀ (a b : α) (rest : List α), swapGo (a :: b :: rest) none = b :: a :: swapGo rest none) ∧
    (∀ a : α, q_swapO (some [a]) = some [a]) ∧
    q_swapO (some ([] : List α)) = some [] ∧
    q_swapO (none : Option (List α)) = none ∧
    (∀ l : List α, (swapGo l none).Perm l) ∧
    (∀ (l : List α) (x : α), l.length % 2 = 0 → swapGo (l ++ [x]) none = swapGo l none ++ [x]) ∧
    ∀ a b c : α, q_swapO (some [a, b, c]) = some [b, a, c] := by
  refine ⟨fun a b rest => rfl, fun a => rfl, rfl, rfl,
    fun l => by simpa using swapGo_perm l none, ?_, fun a b c => rfl⟩
  intro l x hl
  induction l using midSteps.induct with
  | case1 => simp [swapGo]
  | case2 a => simp at hl
  | case3 a b rest ih =>
    have h2 : rest.length % 2 = 0 := by
      simp only [List.length_cons] at hl
      omega
    simp only [List.cons_append, swapGo, List.append_eq, ih h2]

/-- Witness for `q_swap_pairs`: the even-length list [1,2] with trailing 3. -/
theorem q_swap_pairs_witness :
    ([1, 2] : List Nat).length % 2 = 0 ∧ swapGo ([1, 2] ++ [3]) none = swapGo [1, 2] none ++ [3] :=
  ⟨by decide, (q_swap_pairs.2.2.2.2.2.1 [1, 2] 3) (by decide)⟩

/-- The allocation oracle for an insertion: whether the `malloc` of the
node and the `strdup` of the payload succeed. -/
structure AllocEnv where
  nodeOk : Bool
  strOk : Bool

/-- `q_insert_head` (queue.c:49-66) with explicit allocation outcomes.
Result: (return value, queue contents after the call, number of heap
blocks the call allocated and never released nor handed to the queue).
A null header fails before any allocation; a failed node `malloc`
allocates nothing; a failed `strdup` frees the node before returning. -/
def q_insert_headA (env : AllocEnv) (q : Option (List Str)) (s : Str) :
    Bool × Option (List Str) × Nat :=
  match q with
  | none => (false, none, 0)
  | some l =>
    match env.nodeOk with
    | false => (false, some l, 0)
    | true =>
      -- the node is allocated here (one live block)
      match env.strOk with
      | false => (false, some l, 1 - 1)  -- free(node) before returning false
      | true => (true, some (s :: l), 0)  -- node and payload now owned by the queue

/-- `q_insert_tail` (queue.c:75-92): same contract, linking at the back. -/
def q_insert_tailA (env : AllocEnv) (q : Option (List Str)) (s : Str) :
    Bool × Option (List Str) × Nat :=
  match q with
  | none => (false, none, 0)
  | some l =>
    match env.nodeOk with
    | false => (false, some l, 0)
    | true =>
      match env.strOk with
      | false => (false, some l, 1 - 1)
      | true => (true, some (l ++ [s]), 0)

/-- C8: `q_insert_head` and `q_insert_tail` return false without mutating
the list when the header is null, when node allocation fails, or when the
payload copy fails — in which case the partially allocated node is freed —
so a failed insertion leaves the queue exactly as it was and leaks
nothing; insertion succeeds exactly when the header is non-null and both
allocations succeed. -/
theorem q_insert_failure_atomic :
    (∀ (env : AllocEnv) (s : Str), q_insert_headA env none s = (false, none, 0) ∧
        q_insert_tailA env none s = (false, none, 0)) ∧
    (∀ (b : Bool) (l : List Str) (s : Str),
        q_insert_headA ⟨false, b⟩ (some l) s = (false, some l, 0) ∧
        q_insert_tailA ⟨false, b⟩ (some l) s = (false, some l, 0)) ∧
    (∀ (l : List Str) (s : Str),
        q_insert_headA ⟨true, false⟩ (some l) s = (false, some l, 0) ∧
        q_insert_tailA ⟨true, false⟩ (some l) s = (false, some l, 0)) ∧
    (∀ (l : List Str) (s : Str),
        q_insert_headA ⟨true, true⟩ (some l) s = (true, some (s :: l), 0) ∧
        q_insert_tailA ⟨true, true⟩ (some l) s = (true, some (l ++ [s]), 0)) := by
  exact ⟨fun env s => ⟨rfl, rfl⟩, fun b l s => ⟨rfl, rfl⟩,
    fun l s => ⟨rfl, rfl⟩, fun l s => ⟨rfl, rfl⟩⟩

/-- `q_release_element` (queue.c:146-150): no null check — the payload is
freed through an unconditional dereference of the element handle, so a
null handle faults (`none`); a non-null handle is released normally. -/
def q_release_elementO : Option Str → Option Unit
  | none => none  -- e->value dereferences a null pointer
  | some _ => some ()  -- free(e->value); free(e)

/-- `q_free` (queue.c:31-40): an explicit null check makes a null handle a
safe no-op; otherwise every element is released and the header freed. -/
def q_freeO : Option (List Str) → Option Unit
  | none => some ()  -- if (!l) return;
  | some _ => some ()

/-- C10: unlike `q_free`, which is a safe no-op on a null argument,
`q_release_element` dereferences its argument unconditionally, so it is
defined only on non-null (already unlinked) element handles and faults on
a null handle. -/
theorem q_release_element_no_null_check :
    q_freeO none = some () ∧
    q_release_elementO none = none ∧
    (∀ e : Str, q_release_elementO (some e) = some ()) ∧
    ∀ q : Option (List Str), q_freeO q = some () :=
  ⟨rfl, rfl, fun _ => rfl, fun q => by cases q <;> rfl⟩

/-- `size_t` arithmetic: 64-bit unsigned wraparound. -/
def usize (n : Nat) : Nat := n % 2 ^ 64

/-- The byte stores `strncpy(sp, value, bufsize)` performs, as
(offset, byte) pairs: the payload's bytes, NUL-padded, for exactly
`bufsize` offsets. -/
def strncpyWrites (value : Str) (bufsize : Nat) : List (Nat × Nat) :=
  (List.range bufsize).map (fun i => (i, value.getD i 0))

/-- The byte stores of the copy-out in `q_remove_head`/`q_remove_tail`
(queue.c:115-119, 134-138): `strncpy(sp, e->value, bufsize)` followed by
`sp[bufsize - 1] = '\0'`, where `bufsize - 1` is computed in `size_t`
arithmetic and therefore wraps to `2^64 - 1` when `bufsize` is zero. -/
def spWrites (value : Str) (bufsize : Nat) : List (Nat × Nat) :=
  strncpyWrites value bufsize ++ [(usize (bufsize + (2 ^ 64 - 1)), 0)]

/-- `q_remove_head` (queue.c:108-121): null/empty gives NULL and no write;
otherwise the head element is unlinked and returned, and if `sp` is
non-null the copy-out writes happen.  Result: (removed payload, remaining
queue, list of (offset, byte) stores into the caller's buffer). -/
def q_remove_headO (q : Option (List Str)) (sp : Bool) (bufsize : Nat) :
    Option Str × Option (List Str) × List (Nat × Nat) :=
  match q with
  | none => (none, none, [])
  | some [] => (none, some [], [])
  | some (x :: rest) => (some x, some rest, if sp then spWrites x bufsize else [])

/-- `q_remove_tail` (queue.c:127-140): same, for the last element. -/
def q_remove_tailO (q : Option (List Str)) (sp : Bool) (bufsize : Nat) :
    Option Str × Option (List Str) × List (Nat × Nat) :=
  match q with
  | none => (none, none, [])
  | some [] => (none, some [], [])
  | some (x :: rest) =>
    ((x :: rest).getLast?, some (x :: rest).dropLast,
      if sp then spWrites ((x :: rest).getLastD x) bufsize else [])

/-- C2 (failing input): with a non-empty queue, a non-null buffer and
`buffer_size = 0`, both remove operations still execute
`sp[bufsize - 1] = '\0'`, a store at offset `2^64 - 1` — i.e. `sp[-1]`,
outside any zero-sized buffer — where the claim requires that nothing be
written at all.  (For every `bufsize ≥ 1` the two stores at offsets
`0..bufsize-1` stay in bounds, so `bufsize = 0` is the only divergence.) -/
theorem q_remove_bufsize_zero_writes :
    q_remove_headO (some [[97]]) true 0 =
      (some [97], some [], [(2 ^ 64 - 1, 0)]) ∧
    q_remove_tailO (some [[97]]) true 0 =
      (some [97], some [], [(2 ^ 64 - 1, 0)]) ∧
    ((2 : Nat) ^ 64 - 1 < 0) = False ∧
    (∀ v : Str, ∀ n : Nat, 1 ≤ n → ∀ w ∈ spWrites v n, w.1 < n) := by
  refine ⟨by simp [q_remove_headO, spWrites, strncpyWrites, usize], 
    by simp [q_remove_tailO, spWrites, strncpyWrites, usize],
    by simp, ?_⟩
  intro v n hn w hw
  simp only [spWrites, List.mem_append, List.mem_singleton, strncpyWrites, List.mem_map,
    List.mem_range] at hw
  rcases hw with ⟨i, hi, rfl⟩ | rfl
  · simpa using hi
  · have h64 : (0 : Nat) < 2 ^ 64 := by positivity
    simp only [usize]
    rcases Nat.lt_or_ge n (2 ^ 64) with hlt | hge
    · have : n + (2 ^ 64 - 1) = (n - 1) + 2 ^ 64 := by omega
      rw [this, Nat.add_mod_right]
      omega
    · have : (n + (2 ^ 64 - 1)) % 2 ^ 64 < 2 ^ 64 := Nat.mod_lt _ h64
      omega

/-- Witness for `q_remove_bufsize_zero_writes`: buffer size 1 keeps every
store in bounds. -/
theorem q_remove_bufsize_zero_writes_witness :
    (1 : Nat) ≤ 1 ∧ ∀ w ∈ spWrites [97] 1, w.1 < 1 :=
  ⟨le_rfl, q_remove_bufsize_zero_writes.2.2.2 [97] 1 le_rfl⟩

/-! ## Pointer-level model of the circular doubly-linked list

Node addresses are abstracted as `Nat`; the sentinel (`head` in queue.c)
is node `0`.  A state holds the `next` and `prev` link fields and the
payload (`value`) field of every node.  `isCycle s (0 :: elems)` says the
links form the circular doubly-linked list whose elements, in traversal
order from the sentinel, are `elems`. -/

structure LState where
  next : Nat → Nat
  prev : Nat → Nat
  val : Nat → Str

namespace Ptr

/-- `a.next = b` and `b.prev = a`: node `b` directly follows node `a`. -/
def adj (s : LState) (a b : Nat) : Prop := s.next a = b ∧ s.prev b = a

/-- The links of `s` form the circular doubly-linked list with arrangement
`l` (sentinel first): `l` starts at the sentinel, mentions every node once,
and consecutive nodes (wrapping back to the sentinel) are mutually
linked. -/
def isCycle (s : LState) (l : List Nat) : Prop :=
  l.head? = some 0 ∧ l.Nodup ∧ List.Chain' (adj s) (l ++ [0])

/-- Modelled from the spec: `list.h` is not under src/, but §3 of the spec
fixes the link discipline ("its `next` points to the first element, its
`previous` to the last"; insertion "link[s] it at the front/back").
`list_add(node, head)` inserts `node` right after `head`:
`node->next = head->next; node->prev = head; head->next->prev = node;
head->next = node`, each line reading the current state. -/
def list_add (node h : Nat) (s : LState) : LState :=
  let s1 := { s with next := Function.update s.next node (s.next h) }
  let s2 := { s1 with prev := Function.update s1.prev node h }
  let s3 := { s2 with prev := Function.update s2.prev (s2.next h) node }
  { s3 with next := Function.update s3.next h node }

/-- Modelled from the spec: `list_del(node)` unlinks `node` from its
neighbours (`node->next->prev = node->prev; node->prev->next = node->next`
after reading both fields of `node` up front); the removed node's own
fields are left as they were. -/
def list_del (node : Nat) (s : LState) : LState :=
  let nxt := s.next node
  let prv := s.prev node
  let s1 := { s with prev := Function.update s.prev nxt prv }
  { s1 with next := Function.update s1.next prv nxt }

/-- Modelled from the spec: `list_add_tail(node, head)` links `node` as the
last element, i.e. right before `head`: `node->next = head;
node->prev = head->prev; head->prev->next = node; head->prev = node`
(the old `head->prev` is read up front). -/
def list_add_tail (node h : Nat) (s : LState) : LState :=
  let prv := s.prev h
  let s1 := { s with next := Function.update s.next node h }
  let s2 := { s1 with prev := Function.update s1.prev node prv }
  let s3 := { s2 with next := Function.update s2.next prv node }
  { s3 with prev := Function.update s3.prev h node }

/-- Modelled from the spec: `list_move(node, head)` unlinks `node` and
reinserts it right after `head`. -/
def list_move (node h : Nat) (s : LState) : LState := list_add node h (list_del node s)

theorem list_del_next (x : Nat) (s : LState) :
    (list_del x s).next = Function.update s.next (s.prev x) (s.next x) := rfl

theorem list_del_prev (x : Nat) (s : LState) :
    (list_del x s).prev = Function.update s.prev (s.next x) (s.prev x) := rfl

theorem list_del_val (x : Nat) (s : LState) : (list_del x s).val = s.val := rfl

theorem list_add_next (x h : Nat) (s : LState) :
    (list_add x h s).next = Function.update (Function.update s.next x (s.next h)) h x := rfl

theorem list_add_prev (x h : Nat) (s : LState) (hxh : x ≠ h) :
    (list_add x h s).prev =
      Function.update (Function.update s.prev x h) (s.next h) x := by
  simp only [list_add]
  rw [Function.update_noteq (fun he => hxh he.symm)]

theorem list_add_val (x h : Nat) (s : LState) : (list_add x h s).val = s.val := rfl

theorem list_add_tail_next (x h : Nat) (s : LState) :
    (list_add_tail x h s).next =
      Function.update (Function.update s.next x h) (s.prev h) x := rfl

theorem list_add_tail_prev (x h : Nat) (s : LState) :
    (list_add_tail x h s).prev =
      Function.update (Function.update s.prev x (s.prev h)) h x := rfl

theorem list_add_tail_val (x h : Nat) (s : LState) : (list_add_tail x h s).val = s.val := rfl

/-- A chain relates each pair of consecutive entries. -/
theorem chain'_of_middle {R : Nat → Nat → Prop} :
    ∀ (A : List Nat) (x y : Nat) (B : List Nat), List.Chain' R (A ++ x :: y :: B) → R x y := by
  intro A
  induction A with
  | nil => intro x y B h; exact (List.chain'_cons.1 h).1
  | cons a A' ih => intro x y B h; exact ih x y B (List.Chain'.tail h)

/-- Transfer a chain along an implication that holds for each actual pair
(the first component is never the last entry, the second never the
first). -/
theorem chain'_mono_pairs {P Q : Nat → Nat → Prop} :
    ∀ l : List Nat, List.Chain' P l →
      (∀ a b, P a b → a ∈ l.dropLast → b ∈ l.tail → Q a b) → List.Chain' Q l := by
  intro l
  induction l with
  | nil => intro _ _; exact List.chain'_nil
  | cons a t ih =>
    intro hp himp
    cases t with
    | nil => exact List.chain'_singleton a
    | cons b t2 =>
      have hab := (List.chain'_cons.1 hp).1
      refine List.chain'_cons.2 ⟨?_, ?_⟩
      · refine himp a b hab ?_ (by simp)
        rw [List.dropLast_cons₂]
        simp
      · refine ih (List.chain'_cons.1 hp).2 ?_
        intro u v huv hu hv
        refine himp u v huv ?_ ?_
        · rw [List.dropLast_cons₂]
          exact List.mem_cons_of_mem a hu
        · exact List.mem_cons_of_mem b hv

/-- In a cycle chain `(A ++ x :: B) ++ [0]`, node `x` is linked after the
last node of `A` and before the first node of `B` (the sentinel when `B`
is empty). -/
theorem cycle_reads (s : LState) (A B : List Nat) (x : Nat) (hA : A ≠ [])
    (hch : List.Chain' (adj s) ((A ++ x :: B) ++ [0])) :
    adj s (A.getLast hA) x ∧ adj s x (B.headD 0) := by
  constructor
  · have hsplit : (A ++ x :: B) ++ [0] =
        A.dropLast ++ A.getLast hA :: x :: (B ++ [0]) := by
      conv_lhs => rw [← List.dropLast_append_getLast hA]
      simp
    rw [hsplit] at hch
    exact chain'_of_middle _ _ _ _ hch
  · cases B with
    | nil =>
      have hsplit : (A ++ x :: ([] : List Nat)) ++ [0] = A ++ x :: 0 :: [] := by simp
      rw [hsplit] at hch
      exact chain'_of_middle A x 0 [] hch
    | cons b B2 =>
      have hsplit : (A ++ x :: b :: B2) ++ [0] = A ++ x :: b :: (B2 ++ [0]) := by simp
      rw [hsplit] at hch
      exact chain'_of_middle A x b _ hch

/-- No element of the dropLast of a duplicate-free list equals its last
element. -/
theorem ne_getLast_of_mem_dropLast {l : List Nat} (hnd : l.Nodup) (hl : l ≠ [])
    {a : Nat} (ha : a ∈ l.dropLast) : a ≠ l.getLast hl := by
  intro he
  have hsp := List.dropLast_append_getLast hl
  rw [← hsp] at hnd
  exact List.disjoint_of_nodup_append hnd ha (by simp [he])

/-- Unlinking a node of a circular list with `list_del` leaves the circular
list on the remaining nodes. -/
theorem isCycle_list_del (s : LState) (A' B : List Nat) (x : Nat)
    (hc : isCycle s ((0 :: A') ++ x :: B)) :
    isCycle (list_del x s) ((0 :: A') ++ B) := by
  obtain ⟨hhead, hnd, hch⟩ := hc
  have hA : (0 :: A') ≠ [] := by simp
  have hreads := cycle_reads s (0 :: A') B x hA hch
  set p := (0 :: A').getLast hA with hpdef
  set n := B.headD 0 with hndef
  have hpx : s.prev x = p := hreads.1.2
  have hxn : s.next x = n := hreads.2.1
  have hnext' : (list_del x s).next = Function.update s.next p n := by
    rw [list_del_next, hpx, hxn]
  have hprev' : (list_del x s).prev = Function.update s.prev n p := by
    rw [list_del_prev, hpx, hxn]
  have hnd1 : (0 :: A').Nodup := hnd.of_append_left
  have hnd2 : (x :: B).Nodup := hnd.of_append_right
  have hdisj : List.Disjoint (0 :: A') (x :: B) := List.disjoint_of_nodup_append hnd
  have hpmem : p ∈ (0 :: A') := List.getLast_mem hA
  have hn_right : B ≠ [] → n ∈ x :: B := by
    intro hB
    cases B with
    | nil => exact absurd rfl hB
    | cons b0 B2 => simp [hndef]
  refine ⟨rfl, ?_, ?_⟩
  · refine List.Nodup.sublist ?_ hnd
    exact List.Sublist.append_left ((List.Sublist.refl B).cons x) (0 :: A')
  · have hch2 : List.Chain' (adj s) ((0 :: A') ++ (x :: (B ++ [0]))) := by
      have : ((0 :: A') ++ x :: B) ++ [0] = (0 :: A') ++ (x :: (B ++ [0])) := by simp
      rwa [this] at hch
    obtain ⟨c1, crest, glue⟩ := List.chain'_append.1 hch2
    have c2 : List.Chain' (adj s) (B ++ [0]) := crest.tail
    have hgoal : ((0 :: A') ++ B) ++ [0] = (0 :: A') ++ (B ++ [0]) := by simp
    rw [hgoal]
    refine List.chain'_append.2 ⟨?_, ?_, ?_⟩
    · refine chain'_mono_pairs _ c1 ?_
      intro a b hab ha hb
      have hap : a ≠ p := ne_getLast_of_mem_dropLast hnd1 hA ha
      have hbn : b ≠ n := by
        have hbA : b ∈ A' := by simpa using hb
        cases hB : B with
        | nil =>
          have h0 : (0 : Nat) ∉ A' := (List.nodup_cons.1 hnd1).1
          simp only [hndef, hB, List.headD_nil]
          intro he; exact h0 (he ▸ hbA)
        | cons b0 B2 =>
          intro he
          refine hdisj (List.mem_cons_of_mem 0 hbA) ?_
          rw [he]
          exact hn_right (by simp [hB])
      constructor
      · rw [hnext', Function.update_noteq hap]; exact hab.1
      · rw [hprev', Function.update_noteq hbn]; exact hab.2
    · refine chain'_mono_pairs _ c2 ?_
      intro a b hab ha hb
      have haB : a ∈ B := by
        rw [List.dropLast_concat] at ha
        exact ha
      have hap : a ≠ p := fun he => hdisj hpmem (List.mem_cons_of_mem x (he ▸ haB))
      have hbn : b ≠ n := by
        cases hB : B with
        | nil => subst hB; simp at haB
        | cons b0 B2 =>
          subst hB
          have htail : b ∈ B2 ++ [0] := by simpa using hb
          simp only [hndef, List.headD_cons]
          rcases List.mem_append.1 htail with hb2 | hb0
          · intro he
            exact (List.nodup_cons.1 (hnd2.of_cons)).1 (he ▸ hb2)
          · have hb0' : b = 0 := by
              have := hb0; simp at this; omega
            subst hb0'
            intro he
            refine hdisj (List.mem_cons_self 0 A') ?_
            rw [he]
            exact List.mem_cons_of_mem x (List.mem_cons_self b0 B2)
      constructor
      · rw [hnext', Function.update_noteq hap.symm.symm]
        exact hab.1
      · rw [hprev', Function.update_noteq hbn]; exact hab.2
    · intro a ha b hb
      have ha' : p = a := by
        rw [List.getLast?_eq_getLast _ hA] at ha
        simpa using ha
      have hb' : n = b := by
        cases hB : B with
        | nil => subst hB; simpa [hndef] using hb
        | cons b0 B2 => subst hB; simpa [hndef] using hb
      rw [← ha', ← hb']
      constructor
      · rw [hnext', Function.update_same]
      · rw [hprev', Function.update_same]

/-- The sentinel never occurs in the tail of a duplicate-free arrangement
headed by the sentinel. -/
theorem zero_not_mem_tail (L : List Nat) (hhead : L.head? = some 0) (hnd : L.Nodup) :
    (0 : Nat) ∉ L.tail := by
  cases L with
  | nil => simp
  | cons a t =>
    have ha : a = 0 := by simpa using hhead
    subst ha
    simpa using (List.nodup_cons.1 hnd).1

theorem head?_concat_append (B : List Nat) : (B ++ [0]).head? = some (B.headD 0) := by
  cases B <;> simp

/-- Inserting a fresh node after node `h` with `list_add` extends the
circular list right after `h`. -/
theorem isCycle_list_add (s : LState) (A B : List Nat) (h x : Nat)
    (hc : isCycle s (A ++ h :: B)) (hx : x ∉ A ++ h :: B) :
    isCycle (list_add x h s) (A ++ h :: x :: B) := by
  obtain ⟨hhead, hnd, hch⟩ := hc
  set n := B.headD 0 with hndef
  have hx0 : x ≠ 0 := by
    intro he
    exact hx (he ▸ List.mem_of_mem_head? hhead)
  have hxh : x ≠ h := by
    intro he
    refine hx ?_
    rw [he]
    exact List.mem_append_right A (List.mem_cons_self h B)
  -- split the original chain at A ++ [h]
  have hsrc : (A ++ h :: B) ++ [0] = (A ++ [h]) ++ (B ++ [0]) := by simp
  rw [hsrc] at hch
  obtain ⟨c1, c2, glue⟩ := List.chain'_append.1 hch
  have hAh : (A ++ [h]) ≠ [] := by simp
  have hlast : (A ++ [h]).getLast hAh = h := by simp
  have hglueh : adj s h n := by
    refine glue h ?_ n ?_
    · rw [List.getLast?_eq_getLast _ hAh, hlast]; exact rfl
    · rw [head?_concat_append]; exact rfl
  have hhn : s.next h = n := hglueh.1
  have hnext' : (list_add x h s).next =
      Function.update (Function.update s.next x n) h x := by
    rw [list_add_next, hhn]
  have hprev' : (list_add x h s).prev =
      Function.update (Function.update s.prev x h) n x := by
    rw [list_add_prev x h s hxh, hhn]
  -- nodup of the extended arrangement
  have hndAhB : ((A ++ [h]) ++ B).Nodup := by
    have : (A ++ [h]) ++ B = A ++ h :: B := by simp
    rw [this]; exact hnd
  have hdisj : List.Disjoint (A ++ [h]) B := List.disjoint_of_nodup_append hndAhB
  have hndAh : (A ++ [h]).Nodup := hndAhB.of_append_left
  have hndB : B.Nodup := hndAhB.of_append_right
  have htailsub : ∀ b, b ∈ (A ++ [h]).tail → b ∈ (A ++ h :: B).tail := by
    intro b hb
    cases A with
    | nil => simp at hb
    | cons a0 A2 =>
      simp only [List.cons_append, List.tail_cons] at hb ⊢
      rcases List.mem_append.1 hb with h1 | h1
      · exact List.mem_append_left _ h1
      · have : b = h := by simpa using h1
        subst this
        exact List.mem_append_right _ (List.mem_cons_self b B)
  have hBtail : ∀ b, b ∈ B → b ∈ (A ++ h :: B).tail := by
    intro b hb
    cases A with
    | nil => simpa using hb
    | cons a0 A2 =>
      simp only [List.cons_append, List.tail_cons]
      exact List.mem_append_right _ (List.mem_cons_of_mem h hb)
  have h0tail := zero_not_mem_tail (A ++ h :: B) hhead hnd
  refine ⟨?_, ?_, ?_⟩
  · -- the head is unchanged: x is inserted strictly after h
    cases A with
    | nil =>
      have : h = 0 := by simpa using hhead
      subst this; rfl
    | cons a0 A2 => simpa using hhead
  · -- nodup: x is fresh
    have : A ++ h :: x :: B = (A ++ [h]) ++ x :: B := by simp
    rw [this, List.nodup_append]
    refine ⟨hndAh, List.nodup_cons.2 ⟨fun hxB => hx ?_, hndB⟩, ?_⟩
    · exact List.mem_append_right A (List.mem_cons_of_mem h hxB)
    · intro a haAh ha2
      rcases List.mem_cons.1 ha2 with he | haB
      · subst he
        refine hx ?_
        rcases List.mem_append.1 haAh with h1 | h1
        · exact List.mem_append_left _ h1
        · have h2 : a = h := by simpa using h1
          rw [h2]
          exact List.mem_append_right A (List.mem_cons_self h B)
      · exact hdisj haAh haB
  · -- the new chain
    have hgoal : (A ++ h :: x :: B) ++ [0] = (A ++ [h]) ++ (x :: (B ++ [0])) := by simp
    rw [hgoal]
    refine List.chain'_append.2 ⟨?_, ?_, ?_⟩
    · refine chain'_mono_pairs _ c1 ?_
      intro a b hab ha hb
      have hah : a ≠ h := by
        have := ne_getLast_of_mem_dropLast hndAh hAh ha
        rwa [hlast] at this
      have hax : a ≠ x := by
        intro he
        refine hx ?_
        rw [← he]
        have : a ∈ A ++ [h] := List.dropLast_sublist _ |>.subset ha
        rcases List.mem_append.1 this with h1 | h1
        · exact List.mem_append_left _ h1
        · have h2 : a = h := by simpa using h1
          rw [h2]
          exact List.mem_append_right A (List.mem_cons_self h B)
      have hbx : b ≠ x := by
        intro he
        exact hx (he ▸ htailsub b hb |> List.mem_of_mem_tail)
      have hbn : b ≠ n := by
        cases hB : B with
        | nil =>
          simp only [hndef, hB, List.headD_nil]
          intro he
          exact h0tail (he ▸ htailsub b hb)
        | cons b0 B2 =>
          simp only [hndef, hB, List.headD_cons]
          intro he
          refine hdisj ((A ++ [h]).tail_sublist.subset hb) ?_
          rw [he, hB]
          exact List.mem_cons_self b0 B2
      constructor
      · rw [hnext', Function.update_noteq hah, Function.update_noteq hax]
        exact hab.1
      · rw [hprev', Function.update_noteq hbn, Function.update_noteq hbx]
        exact hab.2
    · -- the chain x :: (B ++ [0])
      refine List.chain'_cons'.2 ⟨?_, ?_⟩
      · intro y hy
        rw [head?_concat_append] at hy
        have hyn : n = y := by
          rw [Option.mem_def] at hy
          exact Option.some.inj hy
        rw [← hyn]
        have hxn : x ≠ n := by
          cases hB : B with
          | nil => simpa [hndef, hB] using hx0
          | cons b0 B2 =>
            simp only [hndef, hB, List.headD_cons]
            intro he
            refine hx ?_
            rw [he, hB]
            exact List.mem_append_right A (List.mem_cons_of_mem h (List.mem_cons_self b0 B2))
        constructor
        · rw [hnext', Function.update_noteq hxh, Function.update_same]
        · rw [hprev', Function.update_same]
      · refine chain'_mono_pairs _ c2 ?_
        intro a b hab ha hb
        have haB : a ∈ B := by
          rw [List.dropLast_concat] at ha
          exact ha
        have hah : a ≠ h := by
          intro he
          exact hdisj (List.mem_append_right A (he ▸ List.mem_singleton_self h)) haB
        have hax : a ≠ x := by
          intro he
          exact hx (he ▸ List.mem_append_right A (List.mem_cons_of_mem h haB))
        have hbx : b ≠ x := by
          intro he
          rcases List.mem_append.1 (((B ++ [0]).tail_sublist).subset hb) with h1 | h1
          · refine hx ?_
            rw [← he]
            exact List.mem_append_right A (List.mem_cons_of_mem h h1)
          · have h2 : b = 0 := by simpa using h1
            refine hx0 ?_
            rw [← he]
            exact h2
        have hbn : b ≠ n := by
          cases hB : B with
          | nil => subst hB; simp at haB
          | cons b0 B2 =>
            subst hB
            have htail2 : b ∈ B2 ++ [0] := by simpa using hb
            simp only [hndef, List.headD_cons]
            rcases List.mem_append.1 htail2 with hb2 | hb0
            · intro he
              exact (List.nodup_cons.1 hndB).1 (he ▸ hb2)
            · have hb0' : b = 0 := by
                have := hb0; simp at this; omega
              subst hb0'
              intro he
              exact h0tail (he ▸ hBtail b0 (List.mem_cons_self b0 B2))
        constructor
        · rw [hnext', Function.update_noteq hah, Function.update_noteq hax]
          exact hab.1
        · rw [hprev', Function.update_noteq hbn, Function.update_noteq hbx]
          exact hab.2
    · -- glue: h links to x
      intro a ha b hb
      have ha' : h = a := by
        rw [List.getLast?_eq_getLast _ hAh, hlast] at ha
        rw [Option.mem_def] at ha
        exact Option.some.inj ha
      have hb' : x = b := by
        have hb2 : b ∈ some x := hb
        rw [Option.mem_def] at hb2
        exact Option.some.inj hb2
      rw [← ha', ← hb']
      constructor
      · rw [hnext', Function.update_same]
      · have hxn0 : x ≠ n := by
          cases hB : B with
          | nil => simpa [hndef, hB] using hx0
          | cons b0 B2 =>
            simp only [hndef, hB, List.headD_cons]
            intro he
            refine hx ?_
            rw [he, hB]
            exact List.mem_append_right A (List.mem_cons_of_mem h (List.mem_cons_self b0 B2))
        rw [hprev', Function.update_noteq hxn0, Function.update_same]

theorem LState.ext' (a b : LState) (h1 : a.next = b.next) (h2 : a.prev = b.prev)
    (h3 : a.val = b.val) : a = b := by
  cases a; cases b; simp_all

/-- Appending a fresh node before the sentinel with `list_add_tail` makes
it the last element of the circular list. -/
theorem isCycle_list_add_tail (s : LState) (elems : List Nat) (x : Nat)
    (hc : isCycle s (0 :: elems)) (hx : x ∉ 0 :: elems) :
    isCycle (list_add_tail x 0 s) (0 :: (elems ++ [x])) := by
  rcases List.eq_nil_or_concat elems with rfl | ⟨init, last, rfl⟩
  · have hch2 : List.Chain' (adj s) (0 :: 0 :: []) := by simpa using hc.2.2
    have hadj : adj s 0 0 := (List.chain'_cons.1 hch2).1
    have heq : list_add_tail x 0 s = list_add x 0 s := by
      refine LState.ext' _ _ ?_ ?_ rfl
      · rw [list_add_tail_next, list_add_next, hadj.2, hadj.1]
      · rw [list_add_tail_prev, list_add_prev x 0 s ?_, hadj.2, hadj.1]
        intro he
        exact hx (by rw [he]; exact List.mem_cons_self 0 [])
    rw [heq]
    exact isCycle_list_add s [] [] 0 x hc hx
  · simp only [List.concat_eq_append] at hc hx ⊢
    have hch := hc.2.2
    have hsplit : ((0 :: (init ++ [last])) ++ [0]) = (0 :: init) ++ last :: 0 :: [] := by simp
    rw [hsplit] at hch
    have hadj : adj s last 0 := chain'_of_middle (0 :: init) last 0 [] hch
    have hxlast : x ≠ last := by
      intro he
      refine hx ?_
      rw [he]
      exact List.mem_cons_of_mem 0 (List.mem_append_right init (List.mem_singleton_self last))
    have heq : list_add_tail x 0 s = list_add x last s := by
      refine LState.ext' _ _ ?_ ?_ rfl
      · rw [list_add_tail_next, list_add_next, hadj.2, hadj.1]
      · rw [list_add_tail_prev, list_add_prev x last s hxlast, hadj.2, hadj.1]
    rw [heq]
    have hc' : isCycle s ((0 :: init) ++ last :: []) := by
      have : (0 :: init) ++ last :: [] = 0 :: (init ++ [last]) := by simp
      rw [this]
      exact hc
    have hx' : x ∉ (0 :: init) ++ last :: [] := by
      intro hmem
      refine hx ?_
      have : (0 :: init) ++ last :: [] = 0 :: (init ++ [last]) := by simp
      rwa [this] at hmem
    have hres := isCycle_list_add s (0 :: init) [] last x hc' hx'
    have : (0 :: init) ++ last :: x :: [] = 0 :: (init ++ [last] ++ [x]) := by simp
    rwa [this] at hres

/-- In a cycle chain, any node is linked to the head of what follows it
(the sentinel when nothing follows). -/
theorem cycle_next_of_split (s : LState) (A B : List Nat) (h : Nat)
    (hch : List.Chain' (adj s) ((A ++ h :: B) ++ [0])) : adj s h (B.headD 0) := by
  have hsrc : (A ++ h :: B) ++ [0] = (A ++ [h]) ++ (B ++ [0]) := by simp
  rw [hsrc] at hch
  obtain ⟨-, -, glue⟩ := List.chain'_append.1 hch
  have hAh : (A ++ [h]) ≠ [] := by simp
  refine glue h ?_ (B.headD 0) ?_
  · rw [List.getLast?_eq_getLast _ hAh]
    simp
  · rw [head?_concat_append]; exact rfl

theorem cycle_next0 (s : LState) (elems : List Nat) (hc : isCycle s (0 :: elems)) :
    s.next 0 = elems.headD 0 :=
  (cycle_next_of_split s [] elems 0 hc.2.2).1

/-- The emptiness test `head->next == head` of queue.c detects exactly the
empty arrangement. -/
theorem cycle_empty_iff (s : LState) (elems : List Nat) (hc : isCycle s (0 :: elems)) :
    (s.next 0 = 0 ↔ elems = []) := by
  have h0 := cycle_next0 s elems hc
  cases elems with
  | nil => simp [h0]
  | cons e rest =>
    simp only [h0, List.headD_cons]
    constructor
    · intro he
      exact absurd (he ▸ (List.nodup_cons.1 hc.2.1).1) (by simp)
    · intro he; cases he

/-- `isCycle` does not look at payloads. -/
theorem isCycle_set_val (s : LState) (f : Nat → Str) (l : List Nat) :
    isCycle { s with val := f } l ↔ isCycle s l := Iff.rfl

/-- `q_insert_head` (queue.c:49-66), successful path at the pointer level:
the fresh node `x` gets its payload and is linked right after the
sentinel. -/
def q_insert_head (x : Nat) (v : Str) (s : LState) : LState :=
  list_add x 0 { s with val := Function.update s.val x v }

/-- `q_insert_tail` (queue.c:75-92), successful path: the fresh node is
linked right before the sentinel. -/
def q_insert_tail (x : Nat) (v : Str) (s : LState) : LState :=
  list_add_tail x 0 { s with val := Function.update s.val x v }

/-- `q_remove_head` (queue.c:108-121) at the pointer level: nothing happens
on an empty queue (`head->next == head`); otherwise the first element is
unlinked with `list_del`. -/
def q_remove_head (s : LState) : LState :=
  if s.next 0 = 0 then s else list_del (s.next 0) s

/-- `q_remove_tail` (queue.c:127-140): unlinks `head->prev`. -/
def q_remove_tail (s : LState) : LState :=
  if s.next 0 = 0 then s else list_del (s.prev 0) s

theorem isCycle_q_insert_head (s : LState) (elems : List Nat) (x : Nat) (v : Str)
    (hc : isCycle s (0 :: elems)) (hx : x ∉ 0 :: elems) :
    isCycle (q_insert_head x v s) (0 :: x :: elems) := by
  have := isCycle_list_add { s with val := Function.update s.val x v } [] elems 0 x
    ((isCycle_set_val s _ _).2 hc) hx
  simpa [q_insert_head] using this

theorem isCycle_q_insert_tail (s : LState) (elems : List Nat) (x : Nat) (v : Str)
    (hc : isCycle s (0 :: elems)) (hx : x ∉ 0 :: elems) :
    isCycle (q_insert_tail x v s) (0 :: (elems ++ [x])) := by
  exact isCycle_list_add_tail { s with val := Function.update s.val x v } elems x
    ((isCycle_set_val s _ _).2 hc) hx

theorem isCycle_q_remove_head (s : LState) (elems : List Nat)
    (hc : isCycle s (0 :: elems)) : isCycle (q_remove_head s) (0 :: elems.tail) := by
  cases elems with
  | nil =>
    rw [q_remove_head, if_pos ((cycle_empty_iff s [] hc).2 rfl)]
    exact hc
  | cons e rest =>
    have hne : s.next 0 ≠ 0 := fun he => by
      simpa using (cycle_empty_iff s (e :: rest) hc).1 he
    rw [q_remove_head, if_neg hne]
    have h0 := cycle_next0 s (e :: rest) hc
    rw [h0, List.headD_cons]
    exact isCycle_list_del s [] rest e hc

theorem isCycle_q_remove_tail (s : LState) (elems : List Nat)
    (hc : isCycle s (0 :: elems)) : isCycle (q_remove_tail s) (0 :: elems.dropLast) := by
  rcases List.eq_nil_or_concat elems with rfl | ⟨init, last, rfl⟩
  · rw [q_remove_tail, if_pos ((cycle_empty_iff s [] hc).2 rfl)]
    exact hc
  · simp only [List.concat_eq_append] at hc ⊢
    have hne : s.next 0 ≠ 0 := fun he => by
      simpa using (cycle_empty_iff s (init ++ [last]) hc).1 he
    rw [q_remove_tail, if_neg hne]
    have hch := hc.2.2
    have hsplit : ((0 :: (init ++ [last])) ++ [0]) = ((0 :: init) ++ last :: []) ++ [0] := by simp
    rw [hsplit] at hch
    have hadj : adj s last 0 := cycle_next_of_split s (0 :: init) [] last hch
    rw [hadj.2]
    have hc' : isCycle s ((0 :: init) ++ last :: []) := by
      refine ⟨?_, ?_, hch⟩
      · simp
      · have := hc.2.1
        simpa using this
    have := isCycle_list_del s init [] last hc'
    simpa using this

/-- The traversal of `q_reverse` (queue.c:252-261): `list_for_each_safe`
saves the successor of the current node, moves the current node to the
front with `list_move(curr, head)`, and continues at the saved successor
until the sentinel is reached.  `fuel` bounds the number of iterations
(the C loop needs none; every run below is given enough). -/
def revLoop (s : LState) (fuel curr : Nat) : LState :=
  if curr = 0 then s
  else
    match fuel with
    | 0 => s
    | f + 1 => revLoop (list_move curr 0 s) f (s.next curr)

/-- `q_reverse` (queue.c:252-261) at the pointer level. -/
def q_reverse (fuel : Nat) (s : LState) : LState := revLoop s fuel (s.next 0)

theorem revLoop_ok : ∀ (f : Nat) (R acc : List Nat) (s : LState),
    R.length ≤ f → isCycle s (0 :: (acc ++ R)) →
    isCycle (revLoop s f (R.headD 0)) (0 :: (R.reverse ++ acc)) := by
  intro f
  induction f with
  | zero =>
    intro R acc s hf hc
    match R, hf with
    | [], _ =>
      rw [revLoop]
      simpa using hc
  | succ f ih =>
    intro R acc s hf hc
    cases R with
    | nil =>
      rw [revLoop]
      simpa using hc
    | cons r R' =>
      have hnd := hc.2.1
      have hnd2 : ((r :: ((0 :: acc) ++ R'))).Nodup := by
        rw [← List.nodup_middle]
        simpa using hnd
      have hrfresh : r ∉ (0 :: acc) ++ R' := (List.nodup_cons.1 hnd2).1
      have hr0 : r ≠ 0 := by
        intro he
        refine hrfresh ?_
        rw [he]
        exact List.mem_append_left _ (List.mem_cons_self 0 acc)
      have hcsplit : isCycle s ((0 :: acc) ++ r :: R') := by
        simpa using hc
      have hnext : s.next r = R'.headD 0 :=
        (cycle_next_of_split s (0 :: acc) R' r hcsplit.2.2).1
      have hdel : isCycle (list_del r s) ((0 :: acc) ++ R') :=
        isCycle_list_del s acc R' r hcsplit
      have hdel' : isCycle (list_del r s) (0 :: (acc ++ R')) := by
        simpa using hdel
      have hadd : isCycle (list_add r 0 (list_del r s)) (0 :: r :: (acc ++ R')) := by
        have := isCycle_list_add (list_del r s) [] (acc ++ R') 0 r hdel'
          (by simpa using hrfresh)
        simpa using this
      have hstep : revLoop s (f + 1) ((r :: R').headD 0) =
          revLoop (list_move r 0 s) f (R'.headD 0) := by
        rw [List.headD_cons, revLoop, if_neg hr0, hnext]
      rw [hstep]
      have hres := ih R' (r :: acc) (list_move r 0 s) (by simpa using hf)
        (by simpa [list_move] using hadd)
      have harr : R'.reverse ++ (r :: acc) = (r :: R').reverse ++ acc := by simp
      rwa [harr] at hres

/-- After `q_reverse`, the arrangement is reversed. -/
theorem isCycle_q_reverse (s : LState) (elems : List Nat)
    (hc : isCycle s (0 :: elems)) :
    isCycle (q_reverse elems.length s) (0 :: elems.reverse) := by
  have h0 := cycle_next0 s elems hc
  have := revLoop_ok elems.length elems [] s le_rfl (by simpa using hc)
  rw [q_reverse, h0]
  simpa using this

/-- The traversal of `q_swap` (queue.c:226-243): on the first node of each
pair, `list_del(curr)` and hold it in `temp`; on the second,
`list_add(temp, curr)` reinserts the held node right after it; a node
still held when the sentinel is reached goes to the tail with
`list_add_tail(temp, head)`. -/
def swapLoop (s : LState) (fuel curr : Nat) (temp : Option Nat) : LState :=
  if curr = 0 then
    match temp with
    | none => s
    | some t => list_add_tail t 0 s
  else
    match fuel with
    | 0 => s
    | f + 1 =>
      match temp with
      | none => swapLoop (list_del curr s) f (s.next curr) (some curr)
      | some t => swapLoop (list_add t curr s) f (s.next curr) none

/-- `q_swap` (queue.c:226-243) at the pointer level. -/
def q_swap (fuel : Nat) (s : LState) : LState := swapLoop s fuel (s.next 0) none

theorem swapLoop_ok : ∀ (f : Nat) (R acc : List Nat) (s : LState) (temp : Option Nat),
    R.length ≤ f → isCycle s (0 :: (acc ++ R)) →
    (∀ t, temp = some t → t ∉ 0 :: (acc ++ R)) →
    isCycle (swapLoop s f (R.headD 0) temp) (0 :: (acc ++ swapGo R temp)) := by
  intro f
  induction f with
  | zero =>
    intro R acc s temp hf hc htemp
    match R, hf with
    | [], _ =>
      rw [List.headD_nil, swapLoop.eq_def]
      cases temp with
      | none => simpa [swapGo] using hc
      | some t =>
        have := isCycle_list_add_tail s acc t (by simpa using hc)
          (by simpa using htemp t rfl)
        simpa [swapGo] using this
  | succ f ih =>
    intro R acc s temp hf hc htemp
    cases R with
    | nil =>
      rw [List.headD_nil, swapLoop.eq_def]
      cases temp with
      | none => simpa [swapGo] using hc
      | some t =>
        have := isCycle_list_add_tail s acc t (by simpa using hc)
          (by simpa using htemp t rfl)
        simpa [swapGo] using this
    | cons r R' =>
      have hnd := hc.2.1
      have hnd2 : ((r :: ((0 :: acc) ++ R'))).Nodup := by
        rw [← List.nodup_middle]
        simpa using hnd
      have hrfresh : r ∉ (0 :: acc) ++ R' := (List.nodup_cons.1 hnd2).1
      have hr0 : r ≠ 0 := by
        intro he
        refine hrfresh ?_
        rw [he]
        exact List.mem_append_left _ (List.mem_cons_self 0 acc)
      have hcsplit : isCycle s ((0 :: acc) ++ r :: R') := by simpa using hc
      have hnext : s.next r = R'.headD 0 :=
        (cycle_next_of_split s (0 :: acc) R' r hcsplit.2.2).1
      cases temp with
      | none =>
        have hstep : swapLoop s (f + 1) ((r :: R').headD 0) none =
            swapLoop (list_del r s) f (R'.headD 0) (some r) := by
          rw [List.headD_cons, swapLoop, if_neg hr0, hnext]
        rw [hstep]
        have hdel : isCycle (list_del r s) (0 :: (acc ++ R')) := by
          simpa using isCycle_list_del s acc R' r hcsplit
        have hres := ih R' acc (list_del r s) (some r) (by simpa using hf) hdel
          (by
            intro t ht
            cases ht
            simpa using hrfresh)
        simpa [swapGo] using hres
      | some t =>
        have ht := htemp t rfl
        have hstep : swapLoop s (f + 1) ((r :: R').headD 0) (some t) =
            swapLoop (list_add t r s) f (R'.headD 0) none := by
          rw [List.headD_cons, swapLoop, if_neg hr0, hnext]
        rw [hstep]
        have hadd : isCycle (list_add t r s) ((0 :: acc) ++ r :: t :: R') :=
          isCycle_list_add s (0 :: acc) R' r t hcsplit (by simpa using ht)
        have hadd' : isCycle (list_add t r s) (0 :: ((acc ++ [r, t]) ++ R')) := by
          have : (0 :: acc) ++ r :: t :: R' = 0 :: ((acc ++ [r, t]) ++ R') := by simp
          rwa [this] at hadd
        have hres := ih R' (acc ++ [r, t]) (list_add t r s) none (by simpa using hf) hadd'
          (by intro u hu; cases hu)
        have : (acc ++ [r, t]) ++ swapGo R' none = acc ++ swapGo (r :: R') (some t) := by
          simp [swapGo]
        rwa [this] at hres

/-- After `q_swap`, the arrangement is the pairwise swap of the original. -/
theorem isCycle_q_swap (s : LState) (elems : List Nat)
    (hc : isCycle s (0 :: elems)) :
    isCycle (q_swap elems.length s) (0 :: swapGo elems none) := by
  have h0 := cycle_next0 s elems hc
  have := swapLoop_ok elems.length elems [] s none le_rfl (by simpa using hc)
    (by intro t ht; cases ht)
  rw [q_swap, h0]
  simpa using this

/-- The traversal of `q_delete_dup` (queue.c:202-221): for each node, if it
is not the last one and its payload compares equal to its successor's, it
is unlinked and released and the `is_dup` flag set; otherwise, if the flag
is set, the node (the trailing copy of a run) is unlinked too and the flag
cleared. -/
def dupLoop (s : LState) : Nat → Nat → Bool → LState
  | 0, _, _ => s
  | f + 1, curr, isDup =>
    if curr = 0 then s
    else if s.next curr ≠ 0 ∧ strcmp (s.val curr) (s.val (s.next curr)) = 0 then
      dupLoop (list_del curr s) f (s.next curr) true
    else if isDup then
      dupLoop (list_del curr s) f (s.next curr) false
    else
      dupLoop s f (s.next curr) isDup

/-- `q_delete_dup` (queue.c:202-221) at the pointer level. -/
def q_delete_dup (fuel : Nat) (s : LState) : LState := dupLoop s fuel (s.next 0) false

theorem dupLoop_ok : ∀ (f : Nat) (R acc : List Nat) (s : LState) (b : Bool),
    R.length ≤ f → isCycle s (0 :: (acc ++ R)) →
    ∃ T : List Nat, isCycle (dupLoop s f (R.headD 0) b) (0 :: T) := by
  intro f
  induction f with
  | zero =>
    intro R acc s b hf hc
    match R, hf with
    | [], _ =>
      rw [List.headD_nil, dupLoop]
      exact ⟨acc, by simpa using hc⟩
  | succ f ih =>
    intro R acc s b hf hc
    cases R with
    | nil =>
      rw [List.headD_nil, dupLoop, if_pos rfl]
      exact ⟨acc, by simpa using hc⟩
    | cons r R' =>
      have hnd := hc.2.1
      have hnd2 : ((r :: ((0 :: acc) ++ R'))).Nodup := by
        rw [← List.nodup_middle]
        simpa using hnd
      have hrfresh : r ∉ (0 :: acc) ++ R' := (List.nodup_cons.1 hnd2).1
      have hr0 : r ≠ 0 := by
        intro he
        refine hrfresh ?_
        rw [he]
        exact List.mem_append_left _ (List.mem_cons_self 0 acc)
      have hcsplit : isCycle s ((0 :: acc) ++ r :: R') := by simpa using hc
      have hnext : s.next r = R'.headD 0 :=
        (cycle_next_of_split s (0 :: acc) R' r hcsplit.2.2).1
      have hdel : isCycle (list_del r s) (0 :: (acc ++ R')) := by
        simpa using isCycle_list_del s acc R' r hcsplit
      have hkeep : isCycle s (0 :: ((acc ++ [r]) ++ R')) := by
        have : 0 :: ((acc ++ [r]) ++ R') = 0 :: (acc ++ r :: R') := by simp
        rw [this]
        exact hc
      rw [List.headD_cons, dupLoop, if_neg hr0, hnext]
      by_cases hcond : R'.headD 0 ≠ 0 ∧ strcmp (s.val r) (s.val (R'.headD 0)) = 0
      · rw [if_pos hcond]
        exact ih R' acc (list_del r s) true (by simpa using hf) hdel
      · rw [if_neg hcond]
        cases b with
        | true =>
          rw [if_pos rfl]
          exact ih R' acc (list_del r s) false (by simpa using hf) hdel
        | false =>
          rw [if_neg (by simp)]
          exact ih R' (acc ++ [r]) s false (by simpa using hf) hkeep

/-- After `q_delete_dup`, the structure is a circular list on some subset
of the original nodes. -/
theorem isCycle_q_delete_dup (s : LState) (elems : List Nat)
    (hc : isCycle s (0 :: elems)) :
    ∃ T : List Nat, isCycle (q_delete_dup elems.length s) (0 :: T) := by
  have h0 := cycle_next0 s elems hc
  have := dupLoop_ok elems.length elems [] s false le_rfl (by simpa using hc)
  rw [q_delete_dup, h0]
  simpa using this

/-- Indexed read: in a cycle on `0 :: elems`, the successor of the `i`-th
element is the `i+1`-st (the sentinel — `0`, the `getD` default — after the
last element). -/
theorem cycle_next_getD (s : LState) (elems : List Nat) (hc : isCycle s (0 :: elems))
    (i : Nat) (hi : i < elems.length) :
    s.next (elems.getD i 0) = elems.getD (i + 1) 0 := by
  have hsplit : elems = elems.take i ++ elems[i] :: elems.drop (i + 1) := by
    rw [List.getElem_cons_drop _ _ hi, List.take_append_drop]
  have hch := hc.2.2
  rw [hsplit] at hch
  have hch2 : List.Chain' (adj s)
      (((0 :: elems.take i) ++ elems[i] :: elems.drop (i + 1)) ++ [0]) := by
    simpa using hch
  have hadj := cycle_next_of_split s (0 :: elems.take i) (elems.drop (i + 1)) elems[i] hch2
  have hgd : elems.getD i 0 = elems[i] := by
    rw [List.getD_eq_getElem?_getD, List.getElem?_eq_getElem hi]
    rfl
  have hhd : (elems.drop (i + 1)).headD 0 = elems.getD (i + 1) 0 := by
    rw [List.headD_eq_head?_getD, List.head?_drop, List.getD_eq_getElem?_getD]
  rw [hgd, hadj.1, hhd]

/-- No valid index holds the sentinel. -/
theorem cycle_getD_ne_zero (s : LState) (elems : List Nat) (hc : isCycle s (0 :: elems))
    (i : Nat) (hi : i < elems.length) : elems.getD i 0 ≠ 0 := by
  have hgd : elems.getD i 0 = elems[i] := by
    rw [List.getD_eq_getElem?_getD, List.getElem?_eq_getElem hi]
    rfl
  rw [hgd]
  intro he
  have hmem : (0 : Nat) ∈ elems := he ▸ List.getElem_mem hi
  exact (List.nodup_cons.1 hc.2.1).1 hmem

/-- The fast/slow walk of `q_delete_mid` (queue.c:182-186) at the pointer
level. -/
def midLoop (s : LState) : Nat → Nat → Nat → Nat
  | 0, _, slow => slow
  | f + 1, fast, slow =>
    if fast ≠ 0 ∧ s.next fast ≠ 0 then midLoop s f (s.next (s.next fast)) (s.next slow)
    else slow

/-- `q_delete_mid` (queue.c:177-191) at the pointer level: false (no
change) on an empty queue, otherwise the node the walk stops on is
unlinked and released. -/
def q_delete_mid (fuel : Nat) (s : LState) : LState :=
  if s.next 0 = 0 then s else list_del (midLoop s fuel (s.next 0) (s.next 0)) s

theorem midLoop_ok (s : LState) (elems : List Nat) (hc : isCycle s (0 :: elems)) :
    ∀ (f k : Nat), k ≤ elems.length / 2 → elems.length / 2 - k ≤ f →
      midLoop s f (elems.getD (2 * k) 0) (elems.getD k 0) =
        elems.getD (elems.length / 2) 0 := by
  intro f
  induction f with
  | zero =>
    intro k hk hf
    have : k = elems.length / 2 := by omega
    subst this
    rfl
  | succ f ih =>
    intro k hk hf
    by_cases hkend : k = elems.length / 2
    · subst hkend
      rw [midLoop]
      by_cases h2k : 2 * (elems.length / 2) < elems.length
      · have h2k1 : 2 * (elems.length / 2) + 1 = elems.length := by omega
        rw [if_neg ?_]
        push_neg
        intro _
        rw [cycle_next_getD s elems hc _ h2k, h2k1]
        exact List.getD_eq_default _ _ le_rfl
      · have h2keq : 2 * (elems.length / 2) = elems.length := by omega
        rw [if_neg ?_]
        push_neg
        intro hfast
        exact absurd (List.getD_eq_default elems (0 : Nat) h2keq.ge) hfast
    · have hklt : k < elems.length / 2 := lt_of_le_of_ne hk hkend
      have h2k : 2 * k < elems.length := by omega
      have h2k1 : 2 * k + 1 < elems.length := by omega
      have hkn : k < elems.length := by omega
      rw [midLoop, if_pos ?_]
      · rw [cycle_next_getD s elems hc _ h2k, cycle_next_getD s elems hc _ h2k1,
          cycle_next_getD s elems hc _ hkn]
        have : 2 * k + 1 + 1 = 2 * (k + 1) := by omega
        rw [this]
        exact ih (k + 1) (by omega) (by omega)
      · refine ⟨cycle_getD_ne_zero s elems hc _ h2k, ?_⟩
        rw [cycle_next_getD s elems hc _ h2k]
        exact cycle_getD_ne_zero s elems hc _ h2k1

/-- After `q_delete_mid`, the element at index ⌊n/2⌋ is gone. -/
theorem isCycle_q_delete_mid (s : LState) (elems : List Nat)
    (hc : isCycle s (0 :: elems)) :
    isCycle (q_delete_mid elems.length s) (0 :: elems.eraseIdx (elems.length / 2)) := by
  cases helems : elems with
  | nil =>
    subst helems
    rw [q_delete_mid, if_pos ((cycle_empty_iff s [] hc).2 rfl)]
    exact hc
  | cons e rest =>
    subst helems
    have hne : s.next 0 ≠ 0 := fun he => by
      simpa using (cycle_empty_iff s (e :: rest) hc).1 he
    rw [q_delete_mid, if_neg hne]
    have h0 : s.next 0 = (e :: rest).getD 0 0 := by
      rw [cycle_next0 s _ hc]
      rfl
    set n := (e :: rest).length with hn
    have hwalk : midLoop s n (s.next 0) (s.next 0) = (e :: rest).getD (n / 2) 0 := by
      rw [h0]
      have := midLoop_ok s (e :: rest) hc n 0 (by omega) (by omega)
      simpa using this
    rw [hwalk]
    have hhalf : n / 2 < n := Nat.div_lt_self (by rw [hn]; simp) one_lt_two
    have hgd : (e :: rest).getD (n / 2) 0 = (e :: rest)[n / 2] := by
      rw [List.getD_eq_getElem?_getD, List.getElem?_eq_getElem hhalf]
      rfl
    have hsplit : e :: rest =
        (e :: rest).take (n / 2) ++ (e :: rest)[n / 2] :: (e :: rest).drop (n / 2 + 1) := by
      rw [List.getElem_cons_drop _ _ hhalf, List.take_append_drop]
    have hcsplit : isCycle s
        ((0 :: (e :: rest).take (n / 2)) ++ (e :: rest)[n / 2] :: (e :: rest).drop (n / 2 + 1)) := by
      have h2 : (0 :: (e :: rest).take (n / 2)) ++ (e :: rest)[n / 2] :: (e :: rest).drop (n / 2 + 1)
          = 0 :: (e :: rest) := by
        rw [List.cons_append, ← hsplit]
      rw [h2]
      exact hc
    have hdel := isCycle_list_del s ((e :: rest).take (n / 2)) ((e :: rest).drop (n / 2 + 1))
      ((e :: rest)[n / 2]) hcsplit
    rw [hgd]
    have herase : (0 :: (e :: rest).take (n / 2)) ++ (e :: rest).drop (n / 2 + 1) =
        0 :: (e :: rest).eraseIdx (n / 2) := by
      rw [List.eraseIdx_eq_take_drop_succ]
      simp
    rwa [herase] at hdel

/-- The singly-linked phase of `q_sort` (queue.c:276): after
`head->prev->next = NULL` the elements form a NULL-terminated `next`
chain; following it from `head->next` collects the element sequence. -/
def extract (s : LState) : Nat → Nat → List Nat
  | 0, _ => []
  | f + 1, curr => if curr = 0 then [] else curr :: extract s f (s.next curr)

theorem extract_ok : ∀ (f : Nat) (R acc : List Nat) (s : LState),
    R.length ≤ f → isCycle s (0 :: (acc ++ R)) → extract s f (R.headD 0) = R := by
  intro f
  induction f with
  | zero =>
    intro R acc s hf _
    match R, hf with
    | [], _ => rfl
  | succ f ih =>
    intro R acc s hf hc
    cases R with
    | nil =>
      rw [List.headD_nil, extract, if_pos rfl]
    | cons r R' =>
      have hnd := hc.2.1
      have hnd2 : ((r :: ((0 :: acc) ++ R'))).Nodup := by
        rw [← List.nodup_middle]
        simpa using hnd
      have hrfresh : r ∉ (0 :: acc) ++ R' := (List.nodup_cons.1 hnd2).1
      have hr0 : r ≠ 0 := by
        intro he
        refine hrfresh ?_
        rw [he]
        exact List.mem_append_left _ (List.mem_cons_self 0 acc)
      have hcsplit : isCycle s ((0 :: acc) ++ r :: R') := by simpa using hc
      have hnext : s.next r = R'.headD 0 :=
        (cycle_next_of_split s (0 :: acc) R' r hcsplit.2.2).1
      rw [List.headD_cons, extract, if_neg hr0, hnext]
      have hkeep : isCycle s (0 :: ((acc ++ [r]) ++ R')) := by
        have h2 : 0 :: ((acc ++ [r]) ++ R') = 0 :: (acc ++ r :: R') := by simp
        rw [h2]
        exact hc
      rw [ih R' (acc ++ [r]) s (by simpa using hf) hkeep]

/-- The rebuild phase of `q_sort` (queue.c:277-286): the merge already
rewired the `next` chain into sorted order, and the recovery loop walks
that chain restoring each `prev` pointer and finally closes the circle
(`head->prev = curr; curr->next = head`).  `relinkLoop s p l` writes the
`next`/`prev` pairs along `p :: l` and closes the cycle back to the
sentinel. -/
def relinkLoop (s : LState) (p : Nat) : List Nat → LState
  | [] => { s with next := Function.update s.next p 0, prev := Function.update s.prev 0 p }
  | x :: xs =>
    relinkLoop
      { s with next := Function.update s.next p x, prev := Function.update s.prev x p } x xs

/-- The sorted element sequence: `q_merge_sort` applied to the nodes
paired with their payloads, projected back to nodes. -/
def sortIds (s : LState) (ids : List Nat) : List Nat :=
  (q_merge_sort (ids.map (fun i => (i, s.val i)))).map Prod.fst

/-- `q_sort` (queue.c:270-287) at the pointer level: no effect on an empty
queue; otherwise the element chain is unlinked from the sentinel, merge
sorted, and the circular doubly-linked structure is rebuilt along the
sorted order. -/
def q_sort (fuel : Nat) (s : LState) : LState :=
  if s.next 0 = 0 then s
  else relinkLoop s 0 (sortIds s (extract s fuel (s.next 0)))

theorem relinkLoop_next_untouched : ∀ (xs : List Nat) (s : LState) (p q : Nat),
    q ≠ p → q ∉ xs → (relinkLoop s p xs).next q = s.next q := by
  intro xs
  induction xs with
  | nil =>
    intro s p q hqp _
    simp [relinkLoop, Function.update_noteq hqp]
  | cons x xs ih =>
    intro s p q hqp hq
    rw [relinkLoop]
    have hqx : q ≠ x := by
      intro he
      exact hq (by rw [he]; exact List.mem_cons_self x xs)
    rw [ih _ x q hqx (fun hm => hq (List.mem_cons_of_mem x hm))]
    simp [Function.update_noteq hqp]

theorem relinkLoop_prev_untouched : ∀ (xs : List Nat) (s : LState) (p q : Nat),
    q ∉ xs → q ≠ 0 → (relinkLoop s p xs).prev q = s.prev q := by
  intro xs
  induction xs with
  | nil =>
    intro s p q _ hq0
    simp [relinkLoop, Function.update_noteq hq0]
  | cons x xs ih =>
    intro s p q hq hq0
    rw [relinkLoop]
    rw [ih _ x q (fun hm => hq (List.mem_cons_of_mem x hm)) hq0]
    have hqx : q ≠ x := by
      intro he
      exact hq (by rw [he]; exact List.mem_cons_self x xs)
    simp [Function.update_noteq hqx]

/-- The relink pass establishes the chain along `p :: xs` and back to the
sentinel. -/
theorem relinkLoop_chain : ∀ (xs : List Nat) (s : LState) (p : Nat),
    p ∉ xs → (0 : Nat) ∉ xs → xs.Nodup →
    List.Chain' (adj (relinkLoop s p xs)) (p :: (xs ++ [0])) := by
  intro xs
  induction xs with
  | nil =>
    intro s p _ _ _
    refine List.chain'_cons.2 ⟨?_, List.chain'_singleton 0⟩
    constructor
    · simp [relinkLoop]
    · simp [relinkLoop]
  | cons x xs ih =>
    intro s p hp h0 hnd
    have hpx : p ≠ x := fun he => hp (he ▸ List.mem_cons_self x xs)
    have hx0 : x ≠ 0 := fun he => h0 (he ▸ List.mem_cons_self x xs)
    have hxxs : x ∉ xs := (List.nodup_cons.1 hnd).1
    have hp' : p ∉ xs := fun hm => hp (List.mem_cons_of_mem x hm)
    have h0' : (0 : Nat) ∉ xs := fun hm => h0 (List.mem_cons_of_mem x hm)
    rw [relinkLoop]
    refine List.chain'_cons.2 ⟨?_, ih _ x hxxs h0' (List.nodup_cons.1 hnd).2⟩
    constructor
    · rw [relinkLoop_next_untouched xs _ x p hpx hp']
      simp
    · rw [relinkLoop_prev_untouched xs _ x x hxxs hx0]
      simp

/-- Rebuilding along a duplicate-free arrangement yields that cycle. -/
theorem isCycle_relinkLoop (s : LState) (xs : List Nat) (hnd : (0 :: xs).Nodup) :
    isCycle (relinkLoop s 0 xs) (0 :: xs) := by
  refine ⟨rfl, hnd, ?_⟩
  have h0 : (0 : Nat) ∉ xs := (List.nodup_cons.1 hnd).1
  exact relinkLoop_chain xs s 0 h0 h0 (List.nodup_cons.1 hnd).2

theorem map_fst_pair (g : Nat → Str) : ∀ ids : List Nat,
    List.map (Prod.fst ∘ fun i => (i, g i)) ids = ids := by
  intro ids
  induction ids with
  | nil => rfl
  | cons a t iht => simp only [List.map_cons, iht, Function.comp_apply]

theorem sortIds_perm (s : LState) (ids : List Nat) : (sortIds s ids).Perm ids := by
  have h1 := (q_merge_sort_perm (ids.map (fun i => (i, s.val i)))).map Prod.fst
  rw [List.map_map] at h1
  rw [map_fst_pair s.val ids] at h1
  exact h1

/-- After `q_sort`, the structure is a circular doubly-linked list on the
sorted permutation of the original nodes. -/
theorem isCycle_q_sort (s : LState) (elems : List Nat)
    (hc : isCycle s (0 :: elems)) :
    isCycle (q_sort elems.length s) (0 :: sortIds s elems) := by
  cases helems : elems with
  | nil =>
    subst helems
    rw [q_sort, if_pos ((cycle_empty_iff s [] hc).2 rfl)]
    simpa [sortIds, q_merge_sort] using hc
  | cons e rest =>
    subst helems
    have hne : s.next 0 ≠ 0 := fun he => by
      simpa using (cycle_empty_iff s (e :: rest) hc).1 he
    rw [q_sort, if_neg hne]
    have h0 := cycle_next0 s (e :: rest) hc
    have hex : extract s (e :: rest).length (s.next 0) = e :: rest := by
      rw [h0]
      exact extract_ok (e :: rest).length (e :: rest) [] s le_rfl (by simpa using hc)
    rw [hex]
    refine isCycle_relinkLoop s _ ?_
    have hperm : ((0 : Nat) :: sortIds s (e :: rest)).Perm (0 :: (e :: rest)) :=
      (sortIds_perm s (e :: rest)).cons 0
    exact hperm.nodup_iff.2 hc.2.1

/-- The inner walk of `q_shuffle` (queue.c:336-339): advance `k` `next`
links from a node. -/
def advance (s : LState) : Nat → Nat → Nat
  | 0, node => node
  | k + 1, node => advance s k (s.next node)

/-- One payload exchange of `q_shuffle` (queue.c:341-344): the `value`
pointers of two nodes are swapped; no link changes. -/
def swapVals (s : LState) (a b : Nat) : LState :=
  { s with val := Function.update (Function.update s.val a (s.val b)) b (s.val a) }

/-- The loop of `q_shuffle` (queue.c:335-348): `node1` runs from the last
element backwards; each round picks the node `rand() % len` steps from the
front (the random draws are the oracle list `rands`) and exchanges
payloads with `node1`. -/
def shuffleLoop (s : LState) (node1 : Nat) (rands : List Nat) : Nat → LState
  | 0 => s
  | 1 => s
  | len + 2 =>
    let node2 := advance s ((rands.headD 0) % (len + 2)) (s.next 0)
    shuffleLoop (swapVals s node1 node2) (s.prev node1) rands.tail (len + 1)

/-- `q_shuffle` (queue.c:326-349) at the pointer level; `len` is the
traversal count `q_size` returns. -/
def q_shuffle (rands : List Nat) (len : Nat) (s : LState) : LState :=
  shuffleLoop s (s.prev 0) rands len

theorem shuffleLoop_links : ∀ (len : Nat) (s : LState) (node1 : Nat) (rands : List Nat),
    (shuffleLoop s node1 rands len).next = s.next ∧
    (shuffleLoop s node1 rands len).prev = s.prev := by
  intro len
  induction len using Nat.strong_induction_on with
  | _ len ih =>
    match len with
    | 0 => intro s node1 rands; exact ⟨rfl, rfl⟩
    | 1 => intro s node1 rands; exact ⟨rfl, rfl⟩
    | len + 2 =>
      intro s node1 rands
      rw [shuffleLoop]
      exact ih (len + 1) (by omega) _ _ _

/-- `q_shuffle` never rewires a link, so the structure is untouched. -/
theorem isCycle_q_shuffle (s : LState) (elems : List Nat) (rands : List Nat)
    (hc : isCycle s (0 :: elems)) :
    isCycle (q_shuffle rands elems.length s) (0 :: elems) := by
  obtain ⟨hh, hnd, hch⟩ := hc
  refine ⟨hh, hnd, ?_⟩
  have hlinks := shuffleLoop_links elems.length s (s.prev 0) rands
  refine chain'_mono_pairs _ hch ?_
  intro a b hab _ _
  rw [q_shuffle]
  constructor
  · rw [hlinks.1]; exact hab.1
  · rw [hlinks.2]; exact hab.2

/-- The spec's structural invariant: every node of the list satisfies
`n.next.prev = n` and `n.prev.next = n`, and the sentinel is reachable
from every node by following `next` finitely many times. -/
def Consistent (s : LState) (l : List Nat) : Prop :=
  (∀ n ∈ l, s.prev (s.next n) = n ∧ s.next (s.prev n) = n) ∧
  (∀ n ∈ l, ∃ k : Nat, s.next^[k] n = 0)

theorem chain'_first_mem {s : LState} : ∀ (l : List Nat) (e z : Nat),
    List.Chain' (adj s) (l ++ [e]) → z ∈ l → ∃ m, adj s z m := by
  intro l
  induction l with
  | nil => intro e z _ hz; simp at hz
  | cons a t ih =>
    intro e z hch hz
    rcases List.mem_cons.1 hz with rfl | hz'
    · have := List.chain'_cons'.1 (by simpa using hch)
      rcases ht : (t ++ [e]).head? with - | m
      · exfalso
        have : t ++ [e] ≠ [] := by simp
        rw [List.head?_eq_none_iff] at ht
        exact this ht
      · exact ⟨m, this.1 m ht⟩
    · exact ih e z (by simpa using (List.chain'_cons'.1 (by simpa using hch)).2) hz'

theorem chain'_second_mem {s : LState} : ∀ (l : List Nat) (e z : Nat),
    List.Chain' (adj s) (e :: l) → z ∈ l → ∃ m, adj s m z := by
  intro l
  induction l with
  | nil => intro e z _ hz; simp at hz
  | cons a t ih =>
    intro e z hch hz
    rcases List.mem_cons.1 hz with rfl | hz'
    · exact ⟨e, (List.chain'_cons.1 hch).1⟩
    · exact ih a z (List.chain'_cons.1 hch).2 hz'

theorem chain_reach {s : LState} : ∀ (l : List Nat) (e z : Nat),
    List.Chain' (adj s) (l ++ [e]) → z ∈ l → ∃ k : Nat, s.next^[k] z = e := by
  intro l
  induction l with
  | nil => intro e z _ hz; simp at hz
  | cons a t ih =>
    intro e z hch hz
    rcases List.mem_cons.1 hz with rfl | hz'
    · cases t with
      | nil =>
        have hadj : adj s z e := by simpa using hch
        exact ⟨1, by simpa using hadj.1⟩
      | cons b t2 =>
        have hch2 : List.Chain' (adj s) (z :: b :: (t2 ++ [e])) := by simpa using hch
        have hadj : adj s z b := (List.chain'_cons.1 hch2).1
        have hrest : List.Chain' (adj s) ((b :: t2) ++ [e]) := (List.chain'_cons.1 hch2).2
        obtain ⟨k, hk⟩ := ih e b hrest (List.mem_cons_self b t2)
        refine ⟨k + 1, ?_⟩
        rw [Function.iterate_succ_apply, hadj.1]
        exact hk
    · have hch2 : List.Chain' (adj s) (a :: (t ++ [e])) := by simpa using hch
      exact ih e z hch2.tail hz'

/-- A circular doubly-linked arrangement satisfies the spec invariant. -/
theorem isCycle_consistent (s : LState) (elems : List Nat)
    (hc : isCycle s (0 :: elems)) : Consistent s (0 :: elems) := by
  obtain ⟨-, -, hch⟩ := hc
  constructor
  · intro n hn
    constructor
    · obtain ⟨m, hm⟩ := chain'_first_mem ((0 : Nat) :: elems) 0 n (by simpa using hch) hn
      rw [hm.1, hm.2]
    · have hn' : n ∈ elems ++ [0] := by
        rcases List.mem_cons.1 hn with rfl | h'
        · exact List.mem_append_right elems (List.mem_singleton_self 0)
        · exact List.mem_append_left _ h'
      obtain ⟨m, hm⟩ := chain'_second_mem (elems ++ [(0 : Nat)]) 0 n (by simpa using hch) hn'
      rw [hm.2, hm.1]
  · intro n hn
    exact chain_reach ((0 : Nat) :: elems) 0 n (by simpa using hch) hn

/-- The structure is a well-formed circular doubly-linked list on some
arrangement of nodes. -/
def GoodShape (s : LState) : Prop :=
  ∃ elems : List Nat, isCycle s (0 :: elems) ∧ Consistent s (0 :: elems)

theorem goodShape_of_isCycle (s : LState) (elems : List Nat)
    (hc : isCycle s (0 :: elems)) : GoodShape s :=
  ⟨elems, hc, isCycle_consistent s elems hc⟩

end Ptr

/-- C3: after every mutating operation returns — insert head/tail, remove
head/tail, delete-middle, delete-duplicates, swap-adjacent, reverse, sort
(which breaks the circular structure internally during recursion), and
shuffle — the list is again circular and doubly consistent: every node `n`
in it satisfies `n.next.prev = n` and `n.prev.next = n`, and the sentinel
is reachable from every node by following `next` links. -/
theorem mutators_preserve_invariant (s : LState) (elems : List Nat)
    (hc : Ptr.isCycle s (0 :: elems)) :
    (∀ (x : Nat) (v : Str), x ∉ 0 :: elems → Ptr.GoodShape (Ptr.q_insert_head x v s)) ∧
    (∀ (x : Nat) (v : Str), x ∉ 0 :: elems → Ptr.GoodShape (Ptr.q_insert_tail x v s)) ∧
    Ptr.GoodShape (Ptr.q_remove_head s) ∧
    Ptr.GoodShape (Ptr.q_remove_tail s) ∧
    Ptr.GoodShape (Ptr.q_delete_mid elems.length s) ∧
    Ptr.GoodShape (Ptr.q_delete_dup elems.length s) ∧
    Ptr.GoodShape (Ptr.q_swap elems.length s) ∧
    Ptr.GoodShape (Ptr.q_reverse elems.length s) ∧
    Ptr.GoodShape (Ptr.q_sort elems.length s) ∧
    ∀ rands : List Nat, Ptr.GoodShape (Ptr.q_shuffle rands elems.length s) := by
  refine ⟨?_, ?_, ?_, ?_, ?_, ?_, ?_, ?_, ?_, ?_⟩
  · intro x v hx
    exact Ptr.goodShape_of_isCycle _ _ (Ptr.isCycle_q_insert_head s elems x v hc hx)
  · intro x v hx
    exact Ptr.goodShape_of_isCycle _ _ (Ptr.isCycle_q_insert_tail s elems x v hc hx)
  · exact Ptr.goodShape_of_isCycle _ _ (Ptr.isCycle_q_remove_head s elems hc)
  · exact Ptr.goodShape_of_isCycle _ _ (Ptr.isCycle_q_remove_tail s elems hc)
  · exact Ptr.goodShape_of_isCycle _ _ (Ptr.isCycle_q_delete_mid s elems hc)
  · obtain ⟨T, hT⟩ := Ptr.isCycle_q_delete_dup s elems hc
    exact Ptr.goodShape_of_isCycle _ _ hT
  · exact Ptr.goodShape_of_isCycle _ _ (Ptr.isCycle_q_swap s elems hc)
  · exact Ptr.goodShape_of_isCycle _ _ (Ptr.isCycle_q_reverse s elems hc)
  · exact Ptr.goodShape_of_isCycle _ _ (Ptr.isCycle_q_sort s elems hc)
  · intro rands
    exact Ptr.goodShape_of_isCycle _ _ (Ptr.isCycle_q_shuffle s elems rands hc)

/-- A concrete two-element queue for the invariant witness: sentinel 0,
elements 1 and 2. -/
def sW : LState :=
  { next := fun n => if n = 0 then 1 else if n = 1 then 2 else 0
    prev := fun n => if n = 0 then 2 else if n = 1 then 0 else 1
    val := fun _ => [] }

theorem sW_isCycle : Ptr.isCycle sW (0 :: [1, 2]) := by
  refine ⟨rfl, by decide, ?_⟩
  refine List.chain'_cons.2 ⟨?_, List.chain'_cons.2 ⟨?_, List.chain'_cons.2 ⟨?_, List.chain'_singleton 0⟩⟩⟩
  · exact ⟨by norm_num [sW], by norm_num [sW]⟩
  · exact ⟨by norm_num [sW], by norm_num [sW]⟩
  · exact ⟨by norm_num [sW], by norm_num [sW]⟩

/-- Witness for `mutators_preserve_invariant`: the queue 0→1→2, with node
3 inserted at the head, and the other operations applied to it. -/
theorem mutators_preserve_invariant_witness :
    Ptr.isCycle sW (0 :: [1, 2]) ∧ (3 ∉ 0 :: [1, 2]) ∧
    Ptr.GoodShape (Ptr.q_insert_head 3 [] sW) ∧
    Ptr.GoodShape (Ptr.q_remove_head sW) ∧
    Ptr.GoodShape (Ptr.q_sort 2 sW) := by
  refine ⟨sW_isCycle, by decide, ?_, ?_, ?_⟩
  · exact (mutators_preserve_invariant sW [1, 2] sW_isCycle).1 3 [] (by decide)
  · exact (mutators_preserve_invariant sW [1, 2] sW_isCycle).2.2.1
  · exact (mutators_preserve_invariant sW [1, 2] sW_isCycle).2.2.2.2.2.2.2.2.1
